import Mathlib

/-!
Verification of the trie-based in-memory filesystem (`filesystem.go` of
kalambet/trie-fs) against its natural-language specification.

Go strings are byte sequences, and the trie's edge-splitting logic works at the
byte level with explicit UTF-8 rune-boundary handling, so strings are embedded
as `List Nat` of byte values (each < 256).  Machine integers (`int64`, `byte`)
carry no arithmetic in the modelled code — only copies and equality tests — so
they are embedded as `Int` / `Nat`.  `time.Time` values are only ever converted
to Unix seconds (`.Unix()`), so constructors take the already-converted `Int`.

Pointer mutation in the Go source is embedded by explicit state passing: a Go
function that mutates `*Entry` arguments becomes a Lean function returning the
updated entries.  `nil` slices and empty slices behave identically in every
modelled code path (only `len` and `range` are applied to them), so both are
embedded as `[]`.
-/

namespace TrieFS

/-- UTF-8 encoding of one Unicode scalar value, as byte values. -/
def utf8EncodeChar (c : Char) : List Nat :=
  let v := c.toNat
  if v < 128 then [v]
  else if v < 2048 then [192 + v / 64, 128 + v % 64]
  else if v < 65536 then [224 + v / 4096, 128 + (v / 64) % 64, 128 + v % 64]
  else [240 + v / 262144, 128 + (v / 4096) % 64, 128 + (v / 64) % 64, 128 + v % 64]

/-- UTF-8 encoding of a list of characters. -/
def utf8Bytes : List Char → List Nat
  | [] => []
  | c :: cs => utf8EncodeChar c ++ utf8Bytes cs

/-- The byte sequence of a Go string literal. -/
def bytesOf (s : String) : List Nat := utf8Bytes s.data

/-- Go `strings.HasPrefix(s, pre)`. -/
def strHasPref (s pre : List Nat) : Bool := pre.isPrefixOf s

/-- Go `strings.TrimPrefix(s, pre)`. -/
def strTrimPref (s pre : List Nat) : List Nat :=
  if strHasPref s pre then s.drop pre.length else s

/-- Go `strings.Contains(s, sub)`. -/
def strContains : List Nat → List Nat → Bool
  | [], sub => sub.isEmpty
  | a :: t, sub => sub.isPrefixOf (a :: t) || strContains t sub

/-- Go `strings.Index(s, Separator)`: byte index of the first `/`, or `none` for Go's -1. -/
def indexSep : List Nat → Option Nat
  | [] => none
  | b :: t =>
    if b == 47 then some 0
    else match indexSep t with
      | none => none
      | some i => some (i + 1)

/-- Go `strings.LastIndex(s, Separator)`: byte index of the last `/`, or `none` for Go's -1. -/
def lastIndexSep : List Nat → Option Nat
  | [] => none
  | b :: t =>
    match lastIndexSep t with
    | some i => some (i + 1)
    | none => if b == 47 then some 0 else none

/-- Go `strings.Split(s, Separator)`. -/
def splitSep : List Nat → List (List Nat)
  | [] => [[]]
  | 47 :: t => [] :: splitSep t
  | a :: t =>
    match splitSep t with
    | seg :: rest => (a :: seg) :: rest
    | [] => [[a]]

/-- Go `strings.Join(parts, Separator)`. -/
def joinSep : List (List Nat) → List Nat
  | [] => []
  | [p] => p
  | p :: ps => p ++ 47 :: joinSep ps

/-- Go byte-wise string comparison `a < b` (used by the stable sort in lsRecursive). -/
def strLt : List Nat → List Nat → Bool
  | [], [] => false
  | [], _ :: _ => true
  | _ :: _, [] => false
  | a :: as, b :: bs => if a == b then strLt as bs else a < b

/-- Go `filepath.Base(p)` on a Unix path: empty input gives `"."`; otherwise trailing
slashes are stripped, everything up to the last remaining `/` is dropped, and an
all-slash input gives `"/"`. -/
def pathBase (p : List Nat) : List Nat :=
  if p.isEmpty then [46]
  else
    let p1 := (p.reverse.dropWhile (fun b => b == 47)).reverse
    let p2 := (p1.reverse.takeWhile (fun b => b != 47)).reverse
    if p2.isEmpty then [47] else p2

/-- Go constant `Separator` = "/". -/
def Separator : List Nat := [47]

/-- Go constant `SpecialPathSymbol` = ":". -/
def SpecialPathSymbol : List Nat := [58]

/-- Go constant `DoubleSeparator` = "//". -/
def DoubleSeparator : List Nat := [47, 47]

/-- Go constant `MIMEDriveDirectory`. -/
def MIMEDriveDirectory : List Nat := bytesOf "application/chainsafe-files-directory"

/-- Go constant `MIMEDriveEntry`. -/
def MIMEDriveEntry : List Nat := bytesOf "application/chainsafe-files-entry"

/-- Go constant `MIMEOctetStream`. -/
def MIMEOctetStream : List Nat := bytesOf "application/octet-stream"

/-- Go constant `MIMEReference`. -/
def MIMEReference : List Nat := bytesOf "application/chainsafe-files-reference"

/-- Go `strings.ReplaceAll(path, DoubleSeparator, Separator)`: every
non-overlapping occurrence of `//`, scanned left to right, becomes `/`. -/
def replaceDoubleSep : List Nat → List Nat
  | [] => []
  | [a] => [a]
  | a :: b :: t =>
    if a == 47 && b == 47 then 47 :: replaceDoubleSep t
    else a :: replaceDoubleSep (b :: t)

/-- The `for { if Contains .. { ReplaceAll .. } else break }` loop of `CleanPath`.
Each pass shortens the string, so `path.length` passes always reach the fixpoint;
the fuel only serves Lean's termination checking. -/
def cleanLoop : Nat → List Nat → List Nat
  | 0, p => p
  | fuel + 1, p =>
    if strContains p DoubleSeparator then cleanLoop fuel (replaceDoubleSep p) else p

/-- Go `CleanPath` (filesystem.go): collapse `//` to `/` repeatedly, ensure a
leading `/`, strip one trailing `/` when the length exceeds 1. -/
def CleanPath (path : List Nat) : List Nat :=
  if path.isEmpty then path
  else
    let path := cleanLoop path.length path
    let path := if path.headD 0 != 47 then Separator ++ path else path
    if path.length > 1 && path.getLastD 0 == 47 then path.dropLast else path

/-- Go `JoinPath(paths...)`. -/
def JoinPath (paths : List (List Nat)) : List Nat := CleanPath (joinSep paths)

/-- Go `utf8.RuneStart(b)`: `b & 0xC0 != 0x80`. -/
def runeStart (b : Nat) : Bool := b &&& 192 != 128

/-- Byte length of the longest common prefix of `a` and `b` (the first loop of
`commonPrefix` in filesystem.go). -/
def lcpLen : List Nat → List Nat → Nat
  | a :: as, b :: bs => if a == b then lcpLen as bs + 1 else 0
  | _, _ => 0

/-- The retreat loop of `commonPrefix`: while `i > 0 && i < len(a) && !RuneStart(a[i])`,
decrement `i`. -/
def retreatIdx (a : List Nat) : Nat → Nat
  | 0 => 0
  | i + 1 =>
    if i + 1 < a.length && !runeStart (a.getD (i + 1) 0) then retreatIdx a i else i + 1

/-- Go `commonPrefix(a, b)` (filesystem.go lines 680-692): byte-wise longest common
prefix, backed up to the nearest UTF-8 rune start of `a`. -/
def commonPref (a b : List Nat) : List Nat := a.take (retreatIdx a (lcpLen a b))

/-- Go `utf8.DecodeRuneInString`, first component: the first rune of the byte string,
or U+FFFD (`RuneError`) on empty or invalid input.  The acceptance ranges of the
second byte follow Go's `utf8.acceptRanges` table. -/
def decodeRune : List Nat → Nat
  | [] => 65533
  | b0 :: rest =>
    if b0 < 128 then b0
    else if b0 < 194 || b0 > 244 then 65533
    else
      match rest with
      | [] => 65533
      | b1 :: rest2 =>
        let lo := if b0 == 224 then 160 else if b0 == 240 then 144 else 128
        let hi := if b0 == 237 then 159 else if b0 == 244 then 143 else 191
        if b1 < lo || b1 > hi then 65533
        else if b0 < 224 then (b0 % 32) * 64 + (b1 % 64)
        else
          match rest2 with
          | [] => 65533
          | b2 :: rest3 =>
            if b2 < 128 || b2 > 191 then 65533
            else if b0 < 240 then (b0 % 16) * 4096 + (b1 % 64) * 64 + (b2 % 64)
            else
              match rest3 with
              | [] => 65533
              | b3 :: _ =>
                if b3 < 128 || b3 > 191 then 65533
                else (b0 % 8) * 262144 + (b1 % 64) * 4096 + (b2 % 64) * 64 + (b3 % 64)

/-- The closed error set of filesystem.go. -/
inductive Err where
  | conflict
  | emptyPath
  | emptyName
  | illegalPathChars
  | illegalNameChars
  | cantAddDirectory
  | fileNotExist
  | cantCreateRef
deriving Repr, DecidableEq

/-- Go struct `Meta`. -/
structure Meta where
  failureCode : Int
  failedMessage : List Nat
  suggestedAction : List Nat
deriving Repr, DecidableEq

/-- Go struct `Content`: `{Name, CID, Type, Size, Version, CreatedAt}`.  `Size` and
`CreatedAt` are Go `int64`, `Version` a Go `byte`; the code only copies and compares
them, never computes with them. -/
structure Content where
  name : List Nat
  cid : List Nat
  type : List Nat
  size : Int
  version : Nat
  createdAt : Int
deriving Repr, DecidableEq

/-- Go struct `Entry`: embedded `Content`, `Path`, `Entries` (children), optional `Meta`.
A `nil` entries slice and an empty one are interchangeable in every modelled code path,
so both embed as `[]`. -/
inductive Entry where
  | mk (content : Content) (path : List Nat) (entries : List Entry) (meta : Option Meta)
deriving Repr

mutual
/-- Decidable equality for `Entry`, written by hand because `deriving` does not
handle the nested occurrence of `List Entry`. -/
def entryDecEq : (a b : Entry) → Decidable (a = b)
  | .mk c1 p1 es1 m1, .mk c2 p2 es2 m2 =>
    match decEq c1 c2 with
    | isFalse h => isFalse (by intro e; cases e; exact h rfl)
    | isTrue h1 =>
      match decEq p1 p2 with
      | isFalse h => isFalse (by intro e; cases e; exact h rfl)
      | isTrue h2 =>
        match entriesDecEq es1 es2 with
        | isFalse h => isFalse (by intro e; cases e; exact h rfl)
        | isTrue h3 =>
          match decEq m1 m2 with
          | isFalse h => isFalse (by intro e; cases e; exact h rfl)
          | isTrue h4 => isTrue (by rw [h1, h2, h3, h4])

/-- Decidable equality for lists of entries. -/
def entriesDecEq : (a b : List Entry) → Decidable (a = b)
  | [], [] => isTrue rfl
  | [], _ :: _ => isFalse (by intro e; cases e)
  | _ :: _, [] => isFalse (by intro e; cases e)
  | e :: es, f :: fs =>
    match entryDecEq e f with
    | isFalse h => isFalse (by intro e; cases e; exact h rfl)
    | isTrue h1 =>
      match entriesDecEq es fs with
      | isFalse h => isFalse (by intro e; cases e; exact h rfl)
      | isTrue h2 => isTrue (by rw [h1, h2])
end

instance : DecidableEq Entry := entryDecEq

/-- Field accessor for `Entry.Content`. -/
def Entry.content : Entry → Content
  | .mk c _ _ _ => c

/-- Field accessor for `Entry.Path`. -/
def Entry.path : Entry → List Nat
  | .mk _ p _ _ => p

/-- Field accessor for `Entry.Entries`. -/
def Entry.entries : Entry → List Entry
  | .mk _ _ es _ => es

/-- Field accessor for `Entry.Meta`. -/
def Entry.meta : Entry → Option Meta
  | .mk _ _ _ m => m

/-- Go `(m *Meta).copy()`: nil stays nil, otherwise a fresh shallow copy. -/
def metaCopy : Option Meta → Option Meta
  | none => none
  | some m => some m

mutual
/-- Go `(entry *Entry).copy()`: deep copy of content, path, meta and children. -/
def Entry.copy : Entry → Entry
  | .mk c p es m => .mk c p (copyEntries es) (metaCopy m)

/-- Go `copyEntries`. -/
def copyEntries : List Entry → List Entry
  | [] => []
  | e :: es => Entry.copy e :: copyEntries es
end

/-- Go `(entry *Entry).trimPrefix(prefix)`: trims the prefix off `entry.Path` and
replaces an emptied path with the sentinel `":"`; returns the updated entry, whose
`path` is the Go return value. -/
def Entry.trimPref (e : Entry) (pre : List Nat) : Entry :=
  let p := strTrimPref e.path pre
  let p := if p.isEmpty then SpecialPathSymbol else p
  .mk e.content p e.entries e.meta

/-- Go `(entry *Entry).IsEmptyFolder()`: type `MIMEDriveEntry` with exactly one child
whose path is the sentinel `":"`. -/
def Entry.IsEmptyFolder : Entry → Bool
  | .mk c _ [e0] _ => c.type == MIMEDriveEntry && e0.path == SpecialPathSymbol
  | _ => false

/-- Go `(c *Content).IsDirectory()`. -/
def Content.IsDirectory (c : Content) : Bool :=
  c.type == MIMEDriveDirectory || c.type == MIMEDriveEntry

/-- Go `NewContent(name, cid, size, t, createdAt)`; `createdAt` is the Unix-seconds
value (`createdAt.Unix()` in Go). -/
def NewContent (name cid : List Nat) (size : Int) (t : List Nat) (createdAt : Int) :
    Content :=
  if t == MIMEDriveEntry then
    { name := [], cid := [], type := t, size := 0, version := 0, createdAt := createdAt }
  else
    let version : Nat := if t == MIMEDriveDirectory then 0 else 1
    { name := name, cid := cid, type := t, size := size, version := version,
      createdAt := createdAt }

/-- Go `NewEntry(path, cid, size, contentType, createdAt)`: a plain node for files,
and for `MIMEDriveEntry` the canonical two-node empty-folder shape, an outer branch
at `path` holding one sentinel `":"` child. -/
def NewEntry (path cid : List Nat) (size : Int) (contentType : List Nat)
    (createdAt : Int) : Entry :=
  let me : Entry :=
    .mk (NewContent (pathBase path) cid size contentType createdAt) path [] none
  if contentType == MIMEDriveEntry then
    let inner : Entry :=
      .mk { me.content with name := [], version := 0 } SpecialPathSymbol [] none
    .mk { name := [], cid := [], type := MIMEDriveEntry, size := 0, version := 0,
          createdAt := createdAt }
      path [inner] none
  else me

/-- Go `(c *Content).Validate()`: rejects `/` or `:` in the name, then defaults an
empty type to `MIMEOctetStream`.  The content is updated in place in Go, so the
possibly-updated content is returned. -/
def contentValidate (c : Content) : Content × Option Err :=
  if strContains c.name Separator || strContains c.name SpecialPathSymbol then
    (c, some .illegalNameChars)
  else if c.type.isEmpty then ({ c with type := MIMEOctetStream }, none)
  else (c, none)

/-- Go `(entry *Entry).Validate()` (filesystem.go lines 162-178). -/
def Entry.validate (e : Entry) : Entry × Option Err :=
  if e.content.type == MIMEDriveDirectory then (e, some .cantAddDirectory)
  else if e.content.name == [46] && e.path.isEmpty then (e, some .emptyPath)
  else if strContains e.path SpecialPathSymbol then (e, some .illegalPathChars)
  else if e.IsEmptyFolder && (CleanPath e.path).isEmpty then (e, some .emptyName)
  else
    let (c, err) := contentValidate e.content
    (.mk c e.path e.entries e.meta, err)

/-- Go `updateFolderEntry(cnt, me)`: for directory contents, prepends the last path
segment of `me.Path` to the name.  Only the path of `me` is read. -/
def updateFolderEntry (cnt : Content) (mePath : List Nat) : Content :=
  if cnt.type != MIMEDriveDirectory then cnt
  else
    match lastIndexSep mePath with
    | none => { cnt with name := mePath ++ cnt.name }
    | some idx => { cnt with name := mePath.drop (idx + 1) ++ cnt.name }

mutual
/-- Go `find(subprefix, subtrie)` (filesystem.go lines 991-1029).  On every trie
reachable through `AddFile` no stored content has type `MIMEDriveDirectory`, so the
`updateFolderEntry` calls only rewrite the synthesized directory contents and `find`
is effect-free; it is therefore embedded as a pure reader. -/
def find : List Nat → Entry → Option Content
  | subpre, .mk c pth es m =>
    let sp := strTrimPref subpre pth
    if sp.isEmpty && c.type != MIMEDriveEntry then some c
    else if sp.isEmpty && (Entry.mk c pth es m).IsEmptyFolder then
      some (updateFolderEntry (NewContent [] [] 0 MIMEDriveDirectory c.createdAt) pth)
    else findLoop sp pth c.createdAt es

/-- The child loop of `find`; `ppath`/`pcreated` are the parent's path and creation
time (the parent fields read inside the loop). -/
def findLoop (sp ppath : List Nat) (pcreated : Int) : List Entry → Option Content
  | [] => none
  | me :: rest =>
    if sp.isEmpty then
      if me.path == SpecialPathSymbol then
        if me.content.type != MIMEDriveEntry then some me.content
        else
          some (updateFolderEntry (NewContent [] [] 0 MIMEDriveDirectory pcreated) ppath)
      else findLoop sp ppath pcreated rest
    else if strHasPref sp me.path then
      match find sp me with
      | some item => some (updateFolderEntry item ppath)
      | none => none
    else if strHasPref me.path sp then none
    else findLoop sp ppath pcreated rest
end

mutual
/-- Go `stat(subprefix, subtrie)` (filesystem.go lines 1031-1080).  In the second
branch the inner `subprefix[0]` access is only reached with a non-empty remainder
(the first branch captures exact matches), so `headD` is faithful. -/
def statFind : List Nat → Entry → Option Content
  | subpre, .mk c pth es m =>
    if strHasPref subpre pth then
      let sp := strTrimPref subpre pth
      if sp.isEmpty && c.type != MIMEDriveEntry then some c
      else if sp.isEmpty && (Entry.mk c pth es m).IsEmptyFolder then
        some (NewContent [] [] 0 MIMEDriveDirectory c.createdAt)
      else statLoop sp c.createdAt es
    else if strHasPref pth subpre then
      let sp := strTrimPref pth subpre
      if sp.isEmpty && c.type != MIMEDriveEntry then some c
      else if sp.isEmpty && (Entry.mk c pth es m).IsEmptyFolder then
        some (NewContent [] [] 0 MIMEDriveDirectory c.createdAt)
      else if sp.headD 0 == 47 then
        some (NewContent [] [] 0 MIMEDriveDirectory c.createdAt)
      else none
    else none

/-- The child loop of `stat`; `pcreated` is the parent's creation time. -/
def statLoop (sp : List Nat) (pcreated : Int) : List Entry → Option Content
  | [] => none
  | me :: rest =>
    if sp.isEmpty then
      if me.path == SpecialPathSymbol then
        if me.content.type != MIMEDriveEntry then some me.content
        else some (NewContent [] [] 0 MIMEDriveDirectory pcreated)
      else if me.path.headD 0 == 47 then
        some (NewContent [] [] 0 MIMEDriveDirectory pcreated)
      else statLoop sp pcreated rest
    else
      match statFind sp me with
      | some item => some item
      | none => statLoop sp pcreated rest
end

mutual
/-- Go `collect(prefix, fullname, subtrie)` (filesystem.go lines 871-926). -/
def collect : List Nat → List Nat → Entry → List Content
  | pre, fullname, .mk c pth es _ =>
    if pth == SpecialPathSymbol then
      if c.type == MIMEDriveEntry then
        [NewContent fullname [] 0 MIMEDriveDirectory c.createdAt]
      else [c]
    else
      let suffix := pth
      let suffix := if !pre.isEmpty then strTrimPref suffix pre else suffix
      let suffix :=
        if !suffix.isEmpty && suffix.headD 0 == 47 then suffix.drop 1 else suffix
      match indexSep suffix with
      | some slashIdx =>
        if slashIdx > 0 then
          let fullname := fullname ++ suffix.take slashIdx
          [NewContent fullname [] 0 MIMEDriveDirectory c.createdAt]
        else []
      | none =>
        let fullname := fullname ++ suffix
        if es.isEmpty then
          if c.type == MIMEDriveEntry then
            let name := if c.name == fullname then c.name else fullname ++ c.name
            [NewContent name [] 0 MIMEDriveDirectory c.createdAt]
          else [c]
        else collectKids fullname es

/-- The child loop of `collect`. -/
def collectKids (fullname : List Nat) : List Entry → List Content
  | [] => []
  | me :: rest =>
    (if !me.path.isEmpty && me.path.headD 0 == 47 then
      [NewContent fullname [] 0 MIMEDriveDirectory me.content.createdAt]
    else collect [] fullname me) ++ collectKids fullname rest
end

mutual
/-- Go `list(path, subtrie)` (filesystem.go lines 819-842). -/
def listDir : List Nat → Entry → List Content
  | path, .mk c pth es m =>
    if strHasPref pth path && pth != path then
      let suffix := strTrimPref pth path
      if !suffix.isEmpty && suffix.headD 0 == 47 then
        collect path [] (.mk c pth es m)
      else []
    else if strHasPref path pth then
      if es.isEmpty then []
      else listKids (strTrimPref path pth) es
    else []

/-- The child loop of `list`. -/
def listKids (suffix : List Nat) : List Entry → List Content
  | [] => []
  | me :: rest => listDir suffix me ++ listKids suffix rest
end

mutual
/-- Node count plus total path length of a trie, used as recursion fuel for
`listRecursive`. -/
def Entry.fuelSize : Entry → Nat
  | .mk _ pth es _ => pth.length + 1 + fuelSizeL es

/-- List version of `Entry.fuelSize`. -/
def fuelSizeL : List Entry → Nat
  | [] => 0
  | e :: es => Entry.fuelSize e + fuelSizeL es
end

/-- Go `listRecursive(_path, fixedPath, subtrie)` (filesystem.go lines 858-869).
The Go recursion descends one directory level per call, re-listing the same trie
under a longer path; its depth is bounded by the trie's total path length on the
tries this development works with, so that bound is supplied as explicit fuel by
the callers. -/
def listRecursive : Nat → List Nat → List Nat → Entry → List Entry
  | 0, _, _, _ => []
  | fuel + 1, path, fixedPath, subtrie =>
    (listDir path subtrie).flatMap fun c =>
      Entry.mk c (strTrimPref (JoinPath [path, c.name]) fixedPath) [] none ::
        (if c.type == MIMEDriveDirectory then
          listRecursive fuel (JoinPath [path, c.name]) fixedPath subtrie
        else [])

/-- One step of the stable insertion sort: `e` is placed before the first element
strictly greater than it, so earlier elements win ties. -/
def insertByPath (e : Entry) : List Entry → List Entry
  | [] => [e]
  | x :: xs => if strLt x.path e.path then x :: insertByPath e xs else e :: x :: xs

/-- Go `sort.SliceStable(entries, by Path <)`: a stable sort by path. -/
def sortByPath : List Entry → List Entry
  | [] => []
  | x :: xs => insertByPath x (sortByPath xs)

/-- Go `(mt *Trie).lsRecursive(path)` (filesystem.go lines 446-462); the trie state
is its root, `none` for a nil root. -/
def lsRecursive (root : Option Entry) (path : List Nat) : List Entry :=
  match root with
  | none => []
  | some r =>
    let p := CleanPath path
    sortByPath (listRecursive (Entry.fuelSize r + 1) p p r)

/-- Go `(mt *Trie).Ls(path)` (filesystem.go lines 395-410). -/
def Ls (root : Option Entry) (path : List Nat) : List Content :=
  match root with
  | none => []
  | some r => listDir (CleanPath path) r

/-- Go `(c *Content).copy()` is a field-wise copy, the identity on values. -/
def contentCopy (c : Content) : Content := c

/-- Go `(mt *Trie).File(path)` (filesystem.go lines 464-488). -/
def File (root : Option Entry) (path : List Nat) : Option Content × Option Err :=
  if path.isEmpty then (none, some .emptyPath)
  else
    match root with
    | none => (none, some .fileNotExist)
    | some r =>
      match find (CleanPath path) r with
      | none => (none, some .fileNotExist)
      | some f => (some (contentCopy f), none)

/-- Go `(mt *Trie).Stat(path)` (filesystem.go lines 490-516): like `File` but via
`stat`, with the name rewritten to `filepath.Base` of the raw request path. -/
def Stat (root : Option Entry) (path : List Nat) : Option Content × Option Err :=
  if path.isEmpty then (none, some .emptyPath)
  else
    match root with
    | none => (none, some .fileNotExist)
    | some r =>
      if path == Separator then (none, some .fileNotExist)
      else
        match statFind (CleanPath path) r with
        | none => (none, some .fileNotExist)
        | some f => (some { contentCopy f with name := pathBase path }, none)

/-- The indexed segment loop of `splitEntry`; `ec` is the entry's content, `isDir`
its `IsDirectory()`, `n` the total number of segments. -/
def splitEntryGo (ec : Content) (isDir : Bool) (n : Nat) :
    List (List Nat) → Nat → List Nat → List Entry
  | [], _, _ => []
  | p :: rest, i, currentPath =>
    if p.isEmpty then splitEntryGo ec isDir n rest (i + 1) currentPath
    else
      let currentPath := if i == 0 then p else currentPath ++ Separator ++ p
      let cnt :=
        if isDir || i != n - 1 then
          NewContent (pathBase currentPath) [] 0 MIMEDriveDirectory ec.createdAt
        else NewContent (pathBase currentPath) ec.cid ec.size ec.type ec.createdAt
      Entry.mk cnt currentPath [] none ::
        splitEntryGo ec isDir n rest (i + 1) currentPath

/-- Go `splitEntry(entry)` (filesystem.go lines 1097-1123): one entry per non-empty
path segment, with cumulative paths; all but the last (and all of a directory) get
synthetic `MIMEDriveDirectory` contents. -/
def splitEntry (entry : Entry) : List Entry :=
  let paths := splitSep entry.path
  splitEntryGo entry.content entry.content.IsDirectory paths.length paths 0 []

/-- Go `fixEntries(entries, prefix)` (filesystem.go lines 1124-1134): prepends the
prefix to every path, re-derives the name, rewrites `MIMEDriveEntry` to
`MIMEDriveDirectory`, and clears children. -/
def fixEntries (entries : List Entry) (pre : List Nat) : List Entry :=
  entries.map fun e =>
    let path := pre ++ e.path
    let t := if e.content.type == MIMEDriveEntry then MIMEDriveDirectory
             else e.content.type
    Entry.mk { e.content with name := pathBase path, type := t } path [] e.meta

/-- Go `split(subprefix, me, what, trimPath)` (filesystem.go lines 746-770), with the
mutated `me` as result.  `newEntry` keeps `me`'s old children, content, and the
trimmed path but no meta (the Go struct literal omits `Meta`).  In the empty-folder
special case `me` becomes a deep copy of `what` with `newEntry` appended; otherwise
`me` becomes a fresh `MIMEDriveEntry` branch at `subprefix` over `newEntry` and
(possibly trimmed) `what`. -/
def splitNode (subpre : List Nat) (me what : Entry) (trimPath : Bool) : Entry :=
  let me1 := Entry.trimPref me subpre
  let newEntry := Entry.mk me.content me1.path me.entries none
  if what.IsEmptyFolder && what.path == subpre then
    let w := Entry.copy what
    Entry.mk w.content w.path (w.entries ++ [newEntry]) w.meta
  else
    let what1 := if trimPath then Entry.trimPref what subpre else what
    Entry.mk (NewContent [] [] 0 MIMEDriveEntry me.content.createdAt) subpre
      [newEntry, what1] me.meta

/-- Go `extend(subtrie, what)` (filesystem.go lines 772-786): attach `what` as the
sentinel `":"` child; conflicts if the node is not a `MIMEDriveEntry` branch or
already has a sentinel or a `/`-leading child. -/
def extendNode (subtrie what : Entry) : Entry × Option Err :=
  if subtrie.content.type != MIMEDriveEntry then (subtrie, some .conflict)
  else if subtrie.entries.any
      (fun me => me.path == SpecialPathSymbol || me.path.headD 0 == 47) then
    (subtrie, some .conflict)
  else
    (Entry.mk subtrie.content subtrie.path
      (subtrie.entries ++ [Entry.mk what.content SpecialPathSymbol what.entries what.meta])
      subtrie.meta, none)

/-- The sentinel-replacement loop of `add`: the first `":"` child is replaced by a
deep copy of `what` (`me.Copy(what)`), or conflicts when it holds a file; `none`
means no sentinel child exists and the caller appends instead. -/
def sentinelReplace (what : Entry) : List Entry → Option (List Entry × Option Err)
  | [] => none
  | me :: rest =>
    if me.path == SpecialPathSymbol then
      if me.content.type != MIMEDriveEntry then some (me :: rest, some .conflict)
      else some (Entry.copy what :: rest, none)
    else
      match sentinelReplace what rest with
      | some (rest', err) => some (me :: rest', err)
      | none => none

/-- Go `add(subtrie, what)` (filesystem.go lines 788-817), with the mutated
`subtrie` as first result. -/
def addNode (subtrie what : Entry) : Entry × Option Err :=
  if subtrie.content.type != MIMEDriveEntry then (subtrie, some .conflict)
  else if what.path.headD 0 == 47 then
    if subtrie.IsEmptyFolder then
      (Entry.mk what.content (subtrie.path ++ what.path)
        (if what.content.type != MIMEDriveEntry then [] else subtrie.entries)
        subtrie.meta, none)
    else
      match sentinelReplace what subtrie.entries with
      | some (es', err) =>
        (Entry.mk subtrie.content subtrie.path es' subtrie.meta, err)
      | none =>
        (Entry.mk subtrie.content subtrie.path (subtrie.entries ++ [what])
          subtrie.meta, none)
  else
    (Entry.mk subtrie.content subtrie.path (subtrie.entries ++ [what])
      subtrie.meta, none)

mutual
/-- Go `addTo(subtrie, what)` (filesystem.go lines 694-742), with the mutated
`subtrie` as first result.  `now` models the `time.Now()` call that stamps the
synthetic directory placeholder of the common-prefix case.  The Go return
expressions evaluate `fixEntries(...)` before the tree-mutating call, so each
branch computes the returned list from the pre-mutation values. -/
def addTo (now : Int) : Entry → Entry → Entry × Option (List Entry) × Option Err
  | .mk sc spth ses sm, what =>
    let subtrie := Entry.mk sc spth ses sm
    if strHasPref spth what.path then
      let suf := strTrimPref spth what.path
      if suf.isEmpty then
        let ret := fixEntries [Entry.copy what] []
        let (subtrie', err) := extendNode subtrie what
        (subtrie', some ret, err)
      else if suf.headD 0 == 47 then (subtrie, none, some .conflict)
      else
        let ret := fixEntries [Entry.copy what] []
        (splitNode what.path subtrie what true, some ret, none)
    else if strHasPref what.path spth then
      let what := Entry.trimPref what spth
      if ses.isEmpty then
        if what.path.isEmpty || what.path.headD 0 == 47 then
          if sc.type == MIMEDriveEntry then
            let newPath := spth ++ what.path
            let subtrie' := Entry.mk what.content newPath ses sm
            if what.path.isEmpty then
              (subtrie', some (fixEntries [Entry.copy what] newPath), none)
            else (subtrie', some (fixEntries (splitEntry what) newPath), none)
          else (subtrie, none, some .conflict)
        else
          (splitNode spth subtrie what false,
            some (fixEntries (splitEntry what) spth), none)
      else
        let wr := decodeRune what.path
        match addKids now wr what ses with
        | some (ses', es, err) =>
          (Entry.mk sc spth ses' sm, (es.map (fixEntries · spth)), err)
        | none =>
          let ret := fixEntries (splitEntry what) spth
          let (subtrie', err) := addNode subtrie what
          (subtrie', some ret, err)
    else
      let subpre := commonPref spth what.path
      let temp := Entry.mk what.content (strTrimPref what.path subpre) [] none
      let entries := splitEntry temp
      let entries :=
        if temp.path.headD 0 == 47 then
          entries ++ [NewEntry [] [] 0 MIMEDriveDirectory now]
        else entries
      (splitNode subpre subtrie what true, some (fixEntries entries subpre), none)

/-- The rune-dispatch loop of `addTo`: recurse into the first child whose first
rune equals `what`'s; `none` means no child matched. -/
def addKids (now : Int) (wr : Nat) (what : Entry) :
    List Entry → Option (List Entry × Option (List Entry) × Option Err)
  | [] => none
  | me :: rest =>
    if decodeRune me.path == wr then
      let (me', es, err) := addTo now me what
      some (me' :: rest, es, err)
    else
      match addKids now wr what rest with
      | some (rest', es, err) => some (me :: rest', es, err)
      | none => none
end

/-- Go `(mt *Trie).AddFile(m)` (filesystem.go lines 371-393), with the trie state
as its root.  The `nil` argument is modelled as `none`.  Results are the new root,
the created-entries list (`none` for Go's nil slice), and the error. -/
def AddFile (now : Int) (root : Option Entry) (m : Option Entry) :
    Option Entry × Option (List Entry) × Option Err :=
  match m with
  | none => (root, none, some .conflict)
  | some m =>
    let (m, err) := Entry.validate m
    match err with
    | some e => (root, none, some e)
    | none =>
      let m := Entry.mk m.content (CleanPath m.path) m.entries m.meta
      match root with
      | none => (some m, some (lsRecursive (some m) Separator), none)
      | some r =>
        let (r', es, err) := addTo now r (Entry.copy m)
        (some r', es, err)

/-- Go `removeAndMerge(subtrie, idx)` (filesystem.go lines 958-979), with the mutated
`subtrie` as result; the Boolean is Go's non-nil return, the delete-me signal to the
caller.  After removing child `idx`, a single remaining non-sentinel child is merged
into the parent (edge concatenation, children adoption); a single remaining sentinel
child donates its content, and its slot is dropped for non-`MIMEDriveEntry` content. -/
def removeAndMerge (subtrie : Entry) (idx : Nat) : Entry × Bool :=
  if subtrie.entries.length ≤ 1 then (subtrie, true)
  else
    let es := subtrie.entries.eraseIdx idx
    match es with
    | [e0] =>
      if e0.path != SpecialPathSymbol then
        (Entry.mk e0.content (subtrie.path ++ e0.path) e0.entries subtrie.meta, false)
      else if e0.content.type != MIMEDriveEntry then
        (Entry.mk e0.content subtrie.path [] subtrie.meta, false)
      else (Entry.mk e0.content subtrie.path es subtrie.meta, false)
    | _ => (Entry.mk subtrie.content subtrie.path es subtrie.meta, false)

/-- Go `deleteOrConvert(md)` (filesystem.go lines 981-989): a node whose remaining
path has no `/` past position 0 reports delete-me; otherwise it is converted in
place to the empty-folder placeholder at its parent directory path. -/
def deleteOrConvert (md : Entry) : Entry × Bool :=
  match lastIndexSep md.path with
  | none => (md, true)
  | some idx =>
    if idx == 0 then (md, true)
    else
      (Entry.copy (NewEntry (md.path.take idx) [] 0 MIMEDriveEntry md.content.createdAt),
        false)

mutual
/-- Go `rm(subprefix, subtrie)` (filesystem.go lines 928-956), with the mutated
`subtrie` as result and Go's non-nil return as the delete-me Boolean. -/
def rm : List Nat → Entry → Entry × Bool
  | subpre, .mk c pth es m =>
    let e := Entry.mk c pth es m
    let sp := strTrimPref subpre pth
    if sp.isEmpty && (c.type != MIMEDriveEntry || e.IsEmptyFolder) then
      deleteOrConvert e
    else
      match rmLoop sp e 0 es with
      | some r => r
      | none => (e, false)

/-- The child loop of `rm`: on an empty remainder the first sentinel child is
removed via `removeAndMerge`; otherwise the first prefix-matching child is entered
(`removeAndMerge` on its delete-me signal, child replacement otherwise), and a child
extending the remainder stops the search. -/
def rmLoop (sp : List Nat) (parent : Entry) (i : Nat) :
    List Entry → Option (Entry × Bool)
  | [] => none
  | me :: rest =>
    if sp.isEmpty then
      if me.path == SpecialPathSymbol then some (removeAndMerge parent i)
      else rmLoop sp parent (i + 1) rest
    else if strHasPref sp me.path then
      let (me', found) := rm sp me
      if found then some (removeAndMerge parent i)
      else
        some (Entry.mk parent.content parent.path (parent.entries.set i me')
          parent.meta, false)
    else if strHasPref me.path sp then some (parent, false)
    else rmLoop sp parent (i + 1) rest
end

/-- Go `(mt *Trie).Delete(path)` (filesystem.go lines 547-569): empty path errors,
nil root is a silent no-op, and a delete-me signal from `rm` clears the root. -/
def Delete (root : Option Entry) (path : List Nat) : Option Entry × Option Err :=
  if path.isEmpty then (root, some .emptyPath)
  else
    match root with
    | none => (none, none)
    | some r =>
      let (r', del) := rm (CleanPath path) r
      if del then (none, none) else (some r', none)

/-- The in-place field writes `f.CID = cnt.CID; f.Size = cnt.Size;
f.CreatedAt = cnt.CreatedAt` of `Replace`, applied to a content value. -/
def contentOverwrite (c cnt : Content) : Content :=
  { c with cid := cnt.cid, size := cnt.size, createdAt := cnt.createdAt }

mutual
/-- The tree update performed by `Replace` writing `cnt.CID/Size/CreatedAt` through
the `*Content` returned by `find`: it mirrors `find`'s recursion and updates the
node content at exactly the points where `find` returns a pointer into the trie
(`&subtrie.Content`, `&me.Content`); where `find` returns a freshly synthesized
directory content the write lands outside the trie and the trie is unchanged. -/
def replaceWrite (cnt : Content) : List Nat → Entry → Entry
  | subpre, .mk c pth es m =>
    let sp := strTrimPref subpre pth
    if sp.isEmpty && c.type != MIMEDriveEntry then
      Entry.mk (contentOverwrite c cnt) pth es m
    else if sp.isEmpty && (Entry.mk c pth es m).IsEmptyFolder then
      Entry.mk c pth es m
    else Entry.mk c pth (replaceWriteLoop cnt sp es) m

/-- The child loop of `replaceWrite`, mirroring `findLoop`. -/
def replaceWriteLoop (cnt : Content) (sp : List Nat) : List Entry → List Entry
  | [] => []
  | me :: rest =>
    if sp.isEmpty then
      if me.path == SpecialPathSymbol then
        if me.content.type != MIMEDriveEntry then
          Entry.mk (contentOverwrite me.content cnt) me.path me.entries me.meta :: rest
        else me :: rest
      else me :: replaceWriteLoop cnt sp rest
    else if strHasPref sp me.path then replaceWrite cnt sp me :: rest
    else if strHasPref me.path sp then me :: rest
    else me :: replaceWriteLoop cnt sp rest
end

/-- Go `(mt *Trie).Replace(path, cnt)` (filesystem.go lines 519-544): locate the
content with `find`, keep a copy as `old`, write `cid`, `size`, `createdAt` through
the returned pointer, and return `(cnt.copy(), old.copy())`. -/
def Replace (root : Option Entry) (path : List Nat) (cnt : Content) :
    Option Entry × Option (Content × Content) × Option Err :=
  if path.isEmpty then (root, none, some .emptyPath)
  else
    match root with
    | none => (none, none, some .fileNotExist)
    | some r =>
      match find (CleanPath path) r with
      | none => (some r, none, some .fileNotExist)
      | some old =>
        (some (replaceWrite cnt (CleanPath path) r),
          some (contentCopy cnt, contentCopy old), none)

/-- Which object `AddFile` links in as the root when the trie was empty: Go executes
`mt.Root = m` (filesystem.go line 389), storing the caller's own object, while the
non-empty branch hands `m.copy()` to `addTo`.  This definition runs the program
fragment `trie.AddFile(m); <caller mutates their object with mu>; trie.File(q)` with
that aliasing made explicit: validation and `m.Path = CleanPath(m.Path)` update the
caller's object in place, the empty-trie branch leaves the root aliased to it so a
later caller-side mutation `mu` is visible through the trie, and the non-empty
branch inserts an unaliased deep copy. -/
def addFileMutateFile (now : Int) (root : Option Entry) (m : Entry)
    (mu : Entry → Entry) (q : List Nat) : Option Content × Option Err :=
  let (m, err) := Entry.validate m
  match err with
  | some _ => File root q
  | none =>
    let m := Entry.mk m.content (CleanPath m.path) m.entries m.meta
    match root with
    | none => File (some (mu m)) q
    | some r =>
      let (r', _, _) := addTo now r (Entry.copy m)
      File (some r') q

/-- Whether a byte string contains the substring `//`; unfolds `strContains s
DoubleSeparator` into a shape convenient for induction. -/
def hasDD : List Nat → Bool
  | [] => false
  | [_] => false
  | a :: b :: t => (a == 47 && b == 47) || hasDD (b :: t)

mutual
/-- The compression property claimed for reachable tries: no node has exactly one
child unless that child is the sentinel `":"`. -/
def compressed : Entry → Bool
  | .mk _ _ es _ =>
    (match es with
     | [e0] => e0.path == SpecialPathSymbol
     | _ => true) && compressedL es

/-- List version of `compressed`. -/
def compressedL : List Entry → Bool
  | [] => true
  | e :: es => compressed e && compressedL es
end

/-- Sentinel subtrees produced by the code are tiny: a sentinel `":"` child is
either a leaf or holds exactly the inner `":"` leaf of an empty-folder placeholder. -/
def tame (e : Entry) : Bool :=
  match e.entries with
  | [] => true
  | [e0] => e0.path == SpecialPathSymbol && e0.entries.isEmpty
  | _ => false

mutual
/-- Well-formedness of reachable tries, the inductive strengthening of
`compressed`: every node path is either exactly the sentinel `":"` or free of the
`":"` byte, a single child is always the sentinel, and sentinel children are tame. -/
def wfE : Entry → Bool
  | .mk _ pth es _ =>
    (pth == SpecialPathSymbol || !pth.contains 58) &&
    (match es with
     | [e0] => e0.path == SpecialPathSymbol
     | _ => true) &&
    es.all (fun c => !(c.path == SpecialPathSymbol) || tame c) &&
    wfL es

/-- List version of `wfE`. -/
def wfL : List Entry → Bool
  | [] => true
  | e :: es => wfE e && wfL es
end

/-- Trie states reachable from the empty trie through successful `AddFile` calls
of constructor-built entries and arbitrary `Delete` calls. -/
inductive Reachable : Option Entry → Prop where
  | empty : Reachable none
  | add (now : Int) (r : Option Entry) (path cid : List Nat) (size : Int)
      (ctype : List Nat) (createdAt : Int) (r' : Option Entry)
      (es : Option (List Entry)) :
      Reachable r →
      AddFile now r (some (NewEntry path cid size ctype createdAt)) =
        (r', es, none) →
      Reachable r'
  | del (r : Option Entry) (path : List Nat) (r' : Option Entry) (err : Option Err) :
      Reachable r → Delete r path = (r', err) → Reachable r'

/-- Shape of the entries `AddFile` hands to `addTo` (validated, path cleaned, and
of constructor shape) and of their suffix-trimmed forms along the recursion: a
`:`-free nonempty path, and either a leaf of non-`MIMEDriveEntry` type or the
two-node empty-folder shape. -/
def insOk (w : Entry) : Bool :=
  !w.path.contains 58 && !w.path.isEmpty &&
  (match w.entries with
   | [] => w.content.type != MIMEDriveEntry
   | [e0] => (w.content.type == MIMEDriveEntry) && (e0.path == SpecialPathSymbol) &&
       e0.entries.isEmpty
   | _ => false)

/-- The root invariant maintained by `AddFile` and `Delete`: well-formed with a
`:`-free path. -/
def rootOk : Option Entry → Bool
  | none => true
  | some e => wfE e && !e.path.contains 58

/-- The longest common prefix at character level. -/
def charLcp : List Char → List Char → List Char
  | c1 :: t1, c2 :: t2 => if c1 = c2 then c1 :: charLcp t1 t2 else []
  | _, _ => []

theorem entry_eta (e : Entry) : Entry.mk e.content e.path e.entries e.meta = e := by
  cases e
  rfl

mutual
theorem copy_eq_id : ∀ e : Entry, Entry.copy e = e
  | .mk c p es m => by
    rw [Entry.copy, copyEntries_eq_id es]
    cases m <;> rfl

theorem copyEntries_eq_id : ∀ es : List Entry, copyEntries es = es
  | [] => by rw [copyEntries]
  | e :: es => by rw [copyEntries, copy_eq_id e, copyEntries_eq_id es]
end

theorem beq_nat_comm (a b : Nat) : (a == b) = (b == a) := by
  by_cases h : a = b
  · rw [h]
  · have h2 : ¬b = a := fun e => h e.symm
    simp [h, h2]

theorem strContains_eq_hasDD : ∀ p : List Nat, strContains p DoubleSeparator = hasDD p
  | [] => rfl
  | [a] => by
    show (DoubleSeparator.isPrefixOf [a] || strContains [] DoubleSeparator) = hasDD [a]
    rw [strContains_eq_hasDD []]
    simp [DoubleSeparator, List.isPrefixOf, hasDD]
  | a :: b :: t => by
    show (DoubleSeparator.isPrefixOf (a :: b :: t) || strContains (b :: t) DoubleSeparator)
      = hasDD (a :: b :: t)
    rw [strContains_eq_hasDD (b :: t), hasDD]
    by_cases ha : a = 47 <;> by_cases hb : b = 47 <;>
      simp [ha, hb, DoubleSeparator, List.isPrefixOf, beq_nat_comm]

theorem replaceDoubleSep_length_le : ∀ p : List Nat,
    (replaceDoubleSep p).length ≤ p.length
  | [] => by rw [replaceDoubleSep]
  | [a] => by rw [replaceDoubleSep]
  | a :: b :: t => by
    rw [replaceDoubleSep]
    have h1 := replaceDoubleSep_length_le t
    have h2 := replaceDoubleSep_length_le (b :: t)
    split <;> simp only [List.length_cons] <;> simp only [List.length_cons] at h2 <;> omega

theorem replaceDoubleSep_length_lt : ∀ p : List Nat, hasDD p = true →
    (replaceDoubleSep p).length < p.length
  | [], h => by rw [hasDD] at h; cases h
  | [a], h => by rw [hasDD] at h; cases h
  | a :: b :: t, h => by
    rw [hasDD] at h
    rw [replaceDoubleSep]
    split
    · have h1 := replaceDoubleSep_length_le t
      simp only [List.length_cons]
      omega
    · rename_i hc
      rw [Bool.or_eq_true] at h
      have hdd : hasDD (b :: t) = true := by
        cases h with
        | inl h => exact absurd h (by simpa using hc)
        | inr h => exact h
      have h2 := replaceDoubleSep_length_lt (b :: t) hdd
      simp only [List.length_cons] at h2 ⊢
      omega

theorem replaceDoubleSep_ne_nil : ∀ p : List Nat, p ≠ [] → replaceDoubleSep p ≠ []
  | [], h => absurd rfl h
  | [a], _ => by rw [replaceDoubleSep]; simp
  | a :: b :: t, _ => by rw [replaceDoubleSep]; split <;> simp

theorem cleanLoop_hasDD : ∀ (fuel : Nat) (p : List Nat), p.length ≤ fuel →
    hasDD (cleanLoop fuel p) = false
  | 0, p, h => by
    have : p = [] := by
      cases p
      · rfl
      · simp at h
    subst this
    rw [cleanLoop, hasDD]
  | fuel + 1, p, h => by
    rw [cleanLoop]
    split
    · rename_i hc
      rw [strContains_eq_hasDD] at hc
      have hlt := replaceDoubleSep_length_lt p hc
      exact cleanLoop_hasDD fuel (replaceDoubleSep p) (by omega)
    · rename_i hc
      rw [strContains_eq_hasDD] at hc
      simpa using hc

theorem cleanLoop_ne_nil : ∀ (fuel : Nat) (p : List Nat), p ≠ [] →
    cleanLoop fuel p ≠ []
  | 0, p, h => by rw [cleanLoop]; exact h
  | fuel + 1, p, h => by
    rw [cleanLoop]
    split
    · exact cleanLoop_ne_nil fuel (replaceDoubleSep p) (replaceDoubleSep_ne_nil p h)
    · exact h

theorem hasDD_cons_47 (p : List Nat) (hh : p.headD 0 ≠ 47) (hp : hasDD p = false) :
    hasDD (47 :: p) = false := by
  cases p with
  | nil => rw [hasDD]
  | cons b t =>
    rw [hasDD]
    simp only [List.headD_cons] at hh
    simp [hh, hp]

theorem hasDD_dropLast : ∀ p : List Nat, hasDD p = false → hasDD p.dropLast = false
  | [], _ => rfl
  | [_], _ => rfl
  | a :: b :: t, h => by
    rw [hasDD] at h
    simp only [Bool.or_eq_false_iff, Bool.and_eq_false_iff] at h
    cases t with
    | nil => simp [List.dropLast_cons₂, hasDD]
    | cons c t' =>
      have ih := hasDD_dropLast (b :: c :: t') h.2
      rw [List.dropLast_cons₂] at ih ⊢
      rw [List.dropLast_cons₂, hasDD]
      simp only [Bool.or_eq_false_iff, Bool.and_eq_false_iff]
      exact ⟨h.1, ih⟩

theorem headD_dropLast (p : List Nat) (h : 1 < p.length) :
    p.dropLast.headD 0 = p.headD 0 := by
  cases p with
  | nil => simp at h
  | cons a t =>
    cases t with
    | nil => simp at h
    | cons b t' => rw [List.dropLast_cons₂]; rfl

theorem hasDD_of_double_tail : ∀ p : List Nat, 2 ≤ p.length → p.getLastD 0 = 47 →
    p.dropLast.getLastD 0 = 47 → hasDD p = true
  | [], h, _, _ => by simp at h
  | [_], h, _, _ => by simp at h
  | [a, b], _, h1, h2 => by
    simp only [List.getLastD_cons, List.getLastD_nil] at h1
    have h2' : a = 47 := by simpa using h2
    rw [hasDD]
    simp [h1, h2']
  | a :: b :: c :: t, _, h1, h2 => by
    have hl1 : (a :: b :: c :: t).getLastD 0 = (b :: c :: t).getLastD 0 := by
      simp [List.getLastD_cons]
    have hd : (a :: b :: c :: t).dropLast = a :: (b :: c :: t).dropLast :=
      List.dropLast_cons₂ ..
    have hl2 : (b :: c :: t).dropLast.getLastD 0 = 47 := by
      rw [hd] at h2
      have hne : (b :: c :: t).dropLast ≠ [] := by
        rw [List.dropLast_cons₂]
        simp
      cases hcase : (b :: c :: t).dropLast with
      | nil => exact absurd hcase hne
      | cons x xs =>
        rw [hcase] at h2
        simpa [List.getLastD_cons] using h2
    have ih := hasDD_of_double_tail (b :: c :: t) (by simp) (by rw [hl1] at h1; exact h1) hl2
    rw [hasDD]
    simp [ih]

/-- Shape of `CleanPath` on non-empty input: leading slash, no `//`, and a
trailing slash only for the root. -/
theorem cleanPath_props (p : List Nat) (hp : p ≠ []) :
    (CleanPath p).headD 0 = 47 ∧
    strContains (CleanPath p) DoubleSeparator = false ∧
    ((CleanPath p).getLastD 0 = 47 → CleanPath p = Separator) := by
  rw [CleanPath]
  have hpe : p.isEmpty = false := by
    cases p
    · exact absurd rfl hp
    · rfl
  rw [hpe]
  simp only [Bool.false_eq_true, if_false]
  set q := cleanLoop p.length p with hqdef
  have hq : hasDD q = false := cleanLoop_hasDD p.length p le_rfl
  have hqn : q ≠ [] := cleanLoop_ne_nil p.length p hp
  set r := if (q.headD 0 != 47) = true then Separator ++ q else q with hrdef
  have hrh : r.headD 0 = 47 := by
    rw [hrdef]
    by_cases hh : (q.headD 0 != 47) = true
    · rw [if_pos hh]
      rfl
    · rw [if_neg hh]
      simp only [bne_iff_ne, ne_eq, not_not] at hh
      exact hh
  have hrd : hasDD r = false := by
    rw [hrdef]
    by_cases hh : (q.headD 0 != 47) = true
    · rw [if_pos hh]
      simp only [bne_iff_ne, ne_eq] at hh
      show hasDD (47 :: q) = false
      exact hasDD_cons_47 q hh hq
    · rw [if_neg hh]
      exact hq
  have hrn : r ≠ [] := by
    intro he
    rw [he] at hrh
    simp at hrh
  rw [strContains_eq_hasDD]
  by_cases hstrip : (r.length > 1 && r.getLastD 0 == 47) = true
  · rw [if_pos hstrip]
    simp only [Bool.and_eq_true, decide_eq_true_eq, beq_iff_eq] at hstrip
    obtain ⟨hlen, hlast⟩ := hstrip
    refine ⟨?_, hasDD_dropLast r hrd, ?_⟩
    · rw [headD_dropLast r hlen]
      exact hrh
    · intro hl2
      exfalso
      have : hasDD r = true := hasDD_of_double_tail r (by omega) hlast hl2
      rw [this] at hrd
      cases hrd
  · rw [if_neg hstrip]
    refine ⟨hrh, hrd, ?_⟩
    intro hlast
    simp only [Bool.and_eq_true, decide_eq_true_eq, beq_iff_eq, not_and] at hstrip
    have hlen : ¬1 < r.length := fun hl => hstrip hl hlast
    have h0 : r.length ≠ 0 := fun h => hrn (List.length_eq_zero.mp h)
    have hone : r.length = 1 := by omega
    obtain ⟨a, ha⟩ := List.length_eq_one.mp hone
    rw [ha] at hrh
    simp only [List.headD_cons] at hrh
    rw [ha, hrh]
    rfl


/-- Claim C9: `CleanPath("")` is empty; for non-empty input the result starts with
`/`, contains no `//`, and ends with `/` only when it is exactly the root `/`. -/
theorem c9_cleanPath_shape :
    CleanPath [] = [] ∧
    ∀ p : List Nat, p ≠ [] →
      (CleanPath p).headD 0 = 47 ∧
      strContains (CleanPath p) DoubleSeparator = false ∧
      ((CleanPath p).getLastD 0 = 47 → CleanPath p = Separator) :=
  ⟨rfl, cleanPath_props⟩

/-- Witness for C9 at the concrete input "a//b/". -/
theorem c9_cleanPath_shape_witness :
    bytesOf "a//b/" ≠ [] ∧
    ((CleanPath (bytesOf "a//b/")).headD 0 = 47 ∧
      strContains (CleanPath (bytesOf "a//b/")) DoubleSeparator = false ∧
      ((CleanPath (bytesOf "a//b/")).getLastD 0 = 47 →
        CleanPath (bytesOf "a//b/") = Separator)) :=
  ⟨by decide, c9_cleanPath_shape.2 (bytesOf "a//b/") (by decide)⟩

theorem listKids_all_empty (suffix : List Nat) :
    ∀ es : List Entry, (∀ e ∈ es, listDir suffix e = []) → listKids suffix es = []
  | [], _ => by rw [listKids]
  | me :: rest, h => by
    rw [listKids, h me (by simp),
      listKids_all_empty suffix rest (fun e he => h e (by simp [he]))]
    rfl

theorem listDir_colon_child (suffix : List Nat) (hs : suffix = [] ∨ suffix = [47])
    (e : Entry) (he : e.path.headD 0 = 58) : listDir suffix e = [] := by
  cases e with
  | mk c pth es m =>
    simp only [Entry.path] at he
    cases pth with
    | nil => simp at he
    | cons b bt =>
      simp only [List.headD_cons] at he
      subst he
      rw [listDir]
      rcases hs with h | h <;> subst h
      · have h1 : strHasPref (58 :: bt) [] = true := by
          simp [strHasPref, List.isPrefixOf]
        have h2 : ((58 :: bt : List Nat) != []) = true := rfl
        rw [h1, h2]
        have h3 : strTrimPref (58 :: bt) [] = 58 :: bt := by
          simp [strTrimPref, strHasPref, List.isPrefixOf]
        simp [h3]
      · have h1 : strHasPref (58 :: bt) [47] = false := by
          simp [strHasPref, List.isPrefixOf]
        have h2 : strHasPref [47] (58 :: bt) = false := by
          simp [strHasPref, List.isPrefixOf]
        rw [h1, h2]
        simp

/-- After a fresh install at the root, `list("/", root)` is empty: the root path
starts with `/` and has no `//`, so the suffix after trimming one `/` never starts
with `/` and `collect` is never entered; a root path of exactly `/` or the empty
path dispatches to children whose edges start with `:`. -/
theorem listDir_sep_empty (c : Content) (pth : List Nat) (es : List Entry)
    (m : Option Meta)
    (hshape : pth = [] ∨ (pth.headD 0 = 47 ∧ hasDD pth = false))
    (hkids : ∀ e ∈ es, e.path.headD 0 = 58) :
    listDir [47] (Entry.mk c pth es m) = [] := by
  rw [listDir]
  rcases hshape with hnil | ⟨hh, hdd⟩
  · subst hnil
    have h1 : strHasPref [] [47] = false := by
      simp [strHasPref, List.isPrefixOf]
    have h2 : strHasPref [47] [] = true := by
      simp [strHasPref, List.isPrefixOf]
    have h3 : strTrimPref [47] [] = [47] := by
      simp [strTrimPref, strHasPref, List.isPrefixOf]
    rw [h1]
    simp only [Bool.false_and, Bool.false_eq_true, if_false, h2, if_true, h3]
    cases hes : es with
    | nil => simp
    | cons me rest =>
      have hne : es.isEmpty = false := by rw [hes]; rfl
      rw [← hes]
      simp only [hne, Bool.false_eq_true, if_false]
      exact listKids_all_empty [47] es fun e hein =>
        listDir_colon_child [47] (Or.inr rfl) e (hkids e hein)
  · cases pth with
    | nil => simp at hh
    | cons b bt =>
      simp only [List.headD_cons] at hh
      subst hh
      by_cases hbt : bt = []
      · subst hbt
        have h1 : (([47] : List Nat) != [47]) = false := by simp
        have h2 : strHasPref [47] [47] = true := by decide
        have h3 : strTrimPref [47] [47] = [] := by decide
        rw [h1]
        simp only [Bool.and_false, Bool.false_eq_true, if_false, h2, if_true, h3]
        cases hes : es with
        | nil => simp
        | cons me rest =>
          have hne : es.isEmpty = false := by rw [hes]; rfl
          rw [← hes]
          simp only [hne, Bool.false_eq_true, if_false]
          exact listKids_all_empty [] es fun e hein =>
            listDir_colon_child [] (Or.inl rfl) e (hkids e hein)
      · have hstep : strHasPref (47 :: bt) [47] = true := by
          simp [strHasPref, List.isPrefixOf]
        have hne2 : ((47 :: bt : List Nat) != [47]) = true := by
          simp [bne_iff_ne, hbt]
        have htrim : strTrimPref (47 :: bt) [47] = bt := by
          simp [strTrimPref, strHasPref, List.isPrefixOf]
        rw [hstep, hne2]
        simp only [Bool.true_and, Bool.not_false, if_true, htrim]
        have hbthead : (!bt.isEmpty && bt.headD 0 == 47) = false := by
          cases bt with
          | nil => rfl
          | cons x xs =>
            rw [hasDD] at hdd
            simp only [Bool.or_eq_false_iff, Bool.and_eq_false_iff] at hdd
            have hx : (x == 47) = false := by
              rcases hdd.1 with h | h
              · simp at h
              · exact h
            simp [hx]
        rw [hbthead]
        simp

theorem lsRecursive_sep_of_listDir (r : Entry) (h : listDir [47] r = []) :
    lsRecursive (some r) Separator = [] := by
  rw [lsRecursive]
  have hcp : CleanPath Separator = [47] := rfl
  rw [hcp, listRecursive, h]
  rfl

theorem validate_keeps_path_entries (e : Entry) :
    (Entry.validate e).1.path = e.path ∧ (Entry.validate e).1.entries = e.entries := by
  rw [Entry.validate]
  split_ifs
  · exact ⟨rfl, rfl⟩
  · exact ⟨rfl, rfl⟩
  · exact ⟨rfl, rfl⟩
  · exact ⟨rfl, rfl⟩
  · cases hcv : contentValidate e.content with
    | mk c err => simp [hcv, Entry.path, Entry.entries]

theorem NewEntry_path_kids (p cid : List Nat) (sz : Int) (ct : List Nat) (t : Int) :
    (NewEntry p cid sz ct t).path = p ∧
    ∀ e ∈ (NewEntry p cid sz ct t).entries, e.path.headD 0 = 58 := by
  rw [NewEntry]
  by_cases h : (ct == MIMEDriveEntry) = true <;>
    simp [h, Entry.path, Entry.entries, SpecialPathSymbol]

/-- Claim C1 (code bug): inserting any constructor-built entry into an empty trie
returns an empty created-entries list, not the flattened list of materialised
directories and files along the path.  The root install succeeds, but the returned
`lsRecursive("/")` calls `list` with path `"/"`, whose trim of the root path never
leaves a `/`-leading suffix, so nothing is ever collected.  The repository's own
`TestAddFile` expects the per-level lists (e.g. `/aaa`, `/aaa/bbb`, `/aaa/bbb/f`
for a first insert of `/aaa/bbb/f`). -/
theorem c1_addFile_empty_list (now : Int) (p cid : List Nat) (sz : Int)
    (ct : List Nat) (t : Int) (r : Option Entry) (es : Option (List Entry))
    (h : AddFile now none (some (NewEntry p cid sz ct t)) = (r, es, none)) :
    es = some [] := by
  rw [AddFile] at h
  cases hv : Entry.validate (NewEntry p cid sz ct t) with
  | mk m1 err =>
    rw [hv] at h
    cases err with
    | some e => simp at h
    | none =>
      simp only at h
      have hes : es = some (lsRecursive
          (some (Entry.mk m1.content (CleanPath m1.path) m1.entries m1.meta))
          Separator) := by
        have := congrArg (fun x => x.2.1) h
        simp only at this
        exact this.symm
      have hkp := validate_keeps_path_entries (NewEntry p cid sz ct t)
      rw [hv] at hkp
      simp only at hkp
      have hne := NewEntry_path_kids p cid sz ct t
      have hpath : m1.path = p := by rw [hkp.1, hne.1]
      have hkids : ∀ e ∈ m1.entries, e.path.headD 0 = 58 := by
        rw [hkp.2]
        exact hne.2
      have hshape : CleanPath m1.path = [] ∨
          ((CleanPath m1.path).headD 0 = 47 ∧ hasDD (CleanPath m1.path) = false) := by
        by_cases hp : p = []
        · left
          rw [hpath, hp]
          rfl
        · right
          have hprops := cleanPath_props p hp
          rw [hpath]
          exact ⟨hprops.1, by rw [← strContains_eq_hasDD]; exact hprops.2.1⟩
      have hld : listDir [47]
          (Entry.mk m1.content (CleanPath m1.path) m1.entries m1.meta) = [] :=
        listDir_sep_empty m1.content (CleanPath m1.path) m1.entries m1.meta hshape hkids
      rw [hes, lsRecursive_sep_of_listDir _ hld]

/-- Witness for C1: the failing input of the claim, a first insert of the file
`/a/b/c`, returns the empty list where the claim (and the repository's tests)
require `[/a, /a/b, /a/b/c]`. -/
theorem c1_addFile_empty_list_witness :
    (AddFile 100 none
        (some (NewEntry (bytesOf "/a/b/c") (bytesOf "cid") 512 MIMEOctetStream 100))).2.2 =
      none ∧
    (AddFile 100 none
        (some (NewEntry (bytesOf "/a/b/c") (bytesOf "cid") 512 MIMEOctetStream 100))).2.1 =
      some [] := by
  have h22 : (AddFile 100 none
      (some (NewEntry (bytesOf "/a/b/c") (bytesOf "cid") 512 MIMEOctetStream 100))).2.2 =
      none := by decide
  refine ⟨h22, ?_⟩
  have h : AddFile 100 none
      (some (NewEntry (bytesOf "/a/b/c") (bytesOf "cid") 512 MIMEOctetStream 100)) =
      ((AddFile 100 none
        (some (NewEntry (bytesOf "/a/b/c") (bytesOf "cid") 512 MIMEOctetStream 100))).1,
       (AddFile 100 none
        (some (NewEntry (bytesOf "/a/b/c") (bytesOf "cid") 512 MIMEOctetStream 100))).2.1,
       none) := by
    rw [← h22]
  exact c1_addFile_empty_list 100 (bytesOf "/a/b/c") (bytesOf "cid") 512
    MIMEOctetStream 100 _ _ h

theorem isPrefixOf_self : ∀ l : List Nat, l.isPrefixOf l = true
  | [] => rfl
  | a :: t => by simp [List.isPrefixOf, isPrefixOf_self t]

theorem strTrimPref_self (l : List Nat) : strTrimPref l l = [] := by
  rw [strTrimPref, strHasPref, isPrefixOf_self]
  simp

theorem NewEntry_marker_eq (p : List Nat) (cid : List Nat) (sz : Int) (t : Int) :
    NewEntry p cid sz MIMEDriveEntry t =
      Entry.mk ⟨[], [], MIMEDriveEntry, 0, 0, t⟩ p
        [Entry.mk ⟨[], [], MIMEDriveEntry, 0, 0, t⟩ SpecialPathSymbol [] none] none := by
  rw [NewEntry, NewContent]
  simp [Entry.content]

theorem find_marker_self (p : List Nat) (cid : List Nat) (sz : Int) (t : Int) :
    ∃ cnt : Content, find p (NewEntry p cid sz MIMEDriveEntry t) = some cnt ∧
      cnt.type = MIMEDriveDirectory := by
  rw [NewEntry_marker_eq, find, strTrimPref_self]
  have hef : (Entry.mk ⟨[], [], MIMEDriveEntry, 0, 0, t⟩ p
      [Entry.mk ⟨[], [], MIMEDriveEntry, 0, 0, t⟩ SpecialPathSymbol [] none]
      none).IsEmptyFolder = true := by
    rw [Entry.IsEmptyFolder]
    simp [Entry.path]
  simp only [List.isEmpty_nil, Bool.true_and, hef, if_true]
  have htype : ((⟨[], [], MIMEDriveEntry, 0, 0, t⟩ : Content).type != MIMEDriveEntry)
      = false := by
    simp [bne]
  rw [htype]
  simp only [Bool.false_eq_true, if_false, if_true]
  refine ⟨_, rfl, ?_⟩
  rw [updateFolderEntry]
  split
  · rename_i hcond
    exfalso
    rw [NewContent] at hcond
    simp [bne, MIMEDriveDirectory, MIMEDriveEntry] at hcond
  · split <;> · rw [NewContent]; simp

/-- Claim C4: deleting the sole content bearer of the trie when it does not sit at
the root level (its remaining path has a `/` past position 0) converts the root
into the empty-folder placeholder at the parent directory path; the trie stays
non-empty and the parent is reported as a (synthesized, empty) directory. -/
theorem c4_delete_sole_converts_parent
    (c : Content) (pth : List Nat) (m : Option Meta) (q q2 : List Nat) (idx : Nat)
    (hf : (c.type == MIMEDriveEntry) = false)
    (hq : q ≠ []) (hcp : CleanPath q = pth)
    (hidx : lastIndexSep pth = some idx) (hpos : idx ≠ 0)
    (hq2 : q2 ≠ []) (hcp2 : CleanPath q2 = pth.take idx) :
    Delete (some (Entry.mk c pth [] m)) q =
      (some (NewEntry (pth.take idx) [] 0 MIMEDriveEntry c.createdAt), none) ∧
    ∃ cnt : Content,
      File (Delete (some (Entry.mk c pth [] m)) q).1 q2 = (some cnt, none) ∧
      cnt.type = MIMEDriveDirectory := by
  have hrm : rm (CleanPath q) (Entry.mk c pth [] m) =
      (NewEntry (pth.take idx) [] 0 MIMEDriveEntry c.createdAt, false) := by
    rw [rm, hcp, strTrimPref_self]
    have hcond : ((([] : List Nat).isEmpty &&
        ((c.type != MIMEDriveEntry) ||
          (Entry.mk c pth [] m).IsEmptyFolder)) = true) := by
      simp [bne, hf]
    rw [if_pos hcond, deleteOrConvert]
    simp only [Entry.path, Entry.content, hidx]
    rw [if_neg (by simpa using hpos)]
    rw [copy_eq_id]
  have hdel : Delete (some (Entry.mk c pth [] m)) q =
      (some (NewEntry (pth.take idx) [] 0 MIMEDriveEntry c.createdAt), none) := by
    rw [Delete]
    have hqe : q.isEmpty = false := by
      cases q
      · exact absurd rfl hq
      · rfl
    rw [hqe]
    simp only [Bool.false_eq_true, if_false, hrm]
  refine ⟨hdel, ?_⟩
  rw [hdel]
  obtain ⟨cnt, hfind, htype⟩ :=
    find_marker_self (pth.take idx) ([] : List Nat) 0 c.createdAt
  rw [File]
  have hq2e : q2.isEmpty = false := by
    cases q2
    · exact absurd rfl hq2
    · rfl
  rw [hq2e]
  simp only [Bool.false_eq_true, if_false, hcp2, hfind]
  exact ⟨cnt, rfl, htype⟩

/-- Witness for C4: the scenario of the claim, a lone `/folder/f1` file deleted by
its own path, leaves `/folder` as an empty directory. -/
theorem c4_delete_sole_converts_parent_witness :
    Delete (some (Entry.mk ⟨bytesOf "f1", bytesOf "cid1", MIMEOctetStream, 5, 1, 100⟩
        (bytesOf "/folder/f1") [] none)) (bytesOf "/folder/f1") =
      (some (NewEntry ((bytesOf "/folder/f1").take 7) [] 0 MIMEDriveEntry 100), none) ∧
    ∃ cnt : Content,
      File (Delete (some (Entry.mk ⟨bytesOf "f1", bytesOf "cid1", MIMEOctetStream, 5, 1, 100⟩
          (bytesOf "/folder/f1") [] none)) (bytesOf "/folder/f1")).1 (bytesOf "/folder") =
        (some cnt, none) ∧
      cnt.type = MIMEDriveDirectory :=
  c4_delete_sole_converts_parent
    ⟨bytesOf "f1", bytesOf "cid1", MIMEOctetStream, 5, 1, 100⟩
    (bytesOf "/folder/f1") none (bytesOf "/folder/f1") (bytesOf "/folder") 7
    (by decide) (by decide) (by decide) (by decide) (by decide) (by decide) (by decide)

theorem extendNode_err (s w t' : Entry) (e : Err)
    (h : extendNode s w = (t', some e)) : t' = s := by
  rw [extendNode] at h
  split at h
  · exact (Prod.mk.injEq .. ▸ h).1.symm ▸ rfl
  · split at h
    · exact ((Prod.mk.injEq ..).mp h).1.symm
    · exact absurd ((Prod.mk.injEq ..).mp h).2 (by simp)

theorem sentinelReplace_err (w : Entry) :
    ∀ (l l' : List Entry) (e : Err),
      sentinelReplace w l = some (l', some e) → l' = l
  | [], l', e, h => by rw [sentinelReplace] at h; cases h
  | me :: rest, l', e, h => by
    rw [sentinelReplace] at h
    split at h
    · split at h
      · have := (Option.some.injEq .. ▸ h : (_, _) = (l', some e))
        exact ((Prod.mk.injEq ..).mp this).1.symm
      · have := (Option.some.injEq .. ▸ h : (_, _) = (l', some e))
        exact absurd ((Prod.mk.injEq ..).mp this).2 (by simp)
    · revert h
      cases hrec : sentinelReplace w rest with
      | none => intro h; cases h
      | some pr =>
        obtain ⟨rest', err⟩ := pr
        intro h
        simp only at h
        have := (Option.some.injEq .. ▸ h : (_, _) = (l', some e))
        obtain ⟨h1, h2⟩ := (Prod.mk.injEq ..).mp this
        subst h2
        rw [← h1, sentinelReplace_err w rest rest' e hrec]

theorem addNode_err (s w t' : Entry) (e : Err)
    (h : addNode s w = (t', some e)) : t' = s := by
  rw [addNode] at h
  split at h
  · exact ((Prod.mk.injEq ..).mp h).1.symm
  · split at h
    · split at h
      · exact absurd ((Prod.mk.injEq ..).mp h).2 (by simp)
      · revert h
        cases hrep : sentinelReplace w s.entries with
        | none =>
          intro h
          exact absurd ((Prod.mk.injEq ..).mp h).2 (by simp)
        | some pr =>
          obtain ⟨es', err⟩ := pr
          intro h
          simp only at h
          obtain ⟨h1, h2⟩ := (Prod.mk.injEq ..).mp h
          subst h2
          rw [← h1, sentinelReplace_err w s.entries es' e hrep, entry_eta]
    · exact absurd ((Prod.mk.injEq ..).mp h).2 (by simp)

theorem triple_eq {α β γ : Type} {a a' : α} {b b' : β} {c c' : γ}
    (h : (a, b, c) = (a', b', c')) : a = a' ∧ b = b' ∧ c = c' := by
  injection h with h1 h2
  injection h2 with h2 h3
  exact ⟨h1, h2, h3⟩

mutual
theorem addTo_err : ∀ (now : Int) (s w t' : Entry) (es : Option (List Entry)) (e : Err),
    addTo now s w = (t', es, some e) → t' = s
  | now, .mk sc spth ses sm, w, t', es, e => by
    intro h
    rw [addTo] at h
    dsimp only at h
    by_cases hA : strHasPref spth w.path = true
    · rw [if_pos hA] at h
      by_cases hB : (strTrimPref spth w.path).isEmpty = true
      · rw [if_pos hB] at h
        cases hext : extendNode (Entry.mk sc spth ses sm) w with
        | mk s' err =>
          rw [hext] at h
          obtain ⟨h1, _, h3⟩ := triple_eq h
          subst h3
          rw [← h1]
          exact extendNode_err _ w s' e hext
      · rw [if_neg hB] at h
        by_cases hC : ((strTrimPref spth w.path).headD 0 == 47) = true
        · rw [if_pos hC] at h
          exact (triple_eq h).1.symm
        · rw [if_neg hC] at h
          exact absurd (triple_eq h).2.2 (by simp)
    · rw [if_neg hA] at h
      by_cases hD : strHasPref w.path spth = true
      · rw [if_pos hD] at h
        by_cases hE : ses.isEmpty = true
        · rw [if_pos hE] at h
          by_cases hF : ((Entry.trimPref w spth).path.isEmpty ||
              (Entry.trimPref w spth).path.headD 0 == 47) = true
          · rw [if_pos hF] at h
            by_cases hG : (sc.type == MIMEDriveEntry) = true
            · rw [if_pos hG] at h
              by_cases hH : (Entry.trimPref w spth).path.isEmpty = true
              · rw [if_pos hH] at h
                exact absurd (triple_eq h).2.2 (by simp)
              · rw [if_neg hH] at h
                exact absurd (triple_eq h).2.2 (by simp)
            · rw [if_neg hG] at h
              exact (triple_eq h).1.symm
          · rw [if_neg hF] at h
            exact absurd (triple_eq h).2.2 (by simp)
        · rw [if_neg hE] at h
          revert h
          cases hak : addKids now (decodeRune (Entry.trimPref w spth).path)
              (Entry.trimPref w spth) ses with
          | some pr =>
            obtain ⟨ses', es0, err⟩ := pr
            intro h
            dsimp only at h
            obtain ⟨h1, _, h3⟩ := triple_eq h
            subst h3
            rw [← h1,
              addKids_err now (decodeRune (Entry.trimPref w spth).path)
                (Entry.trimPref w spth) ses ses' es0 e hak]
          | none =>
            cases hadd : addNode (Entry.mk sc spth ses sm) (Entry.trimPref w spth) with
            | mk s' err =>
              intro h
              dsimp only at h
              obtain ⟨h1, _, h3⟩ := triple_eq h
              subst h3
              rw [← h1]
              exact addNode_err _ _ s' e hadd
      · rw [if_neg hD] at h
        exact absurd (triple_eq h).2.2 (by simp)

theorem addKids_err : ∀ (now : Int) (wr : Nat) (w : Entry) (l l' : List Entry)
    (es : Option (List Entry)) (e : Err),
    addKids now wr w l = some (l', es, some e) → l' = l
  | now, wr, w, [], l', es, e => by
    intro h
    rw [addKids] at h
    cases h
  | now, wr, w, me :: rest, l', es, e => by
    intro h
    rw [addKids] at h
    split at h
    · revert h
      cases ha : addTo now me w with
      | mk me' pr =>
        obtain ⟨es0, err⟩ := pr
        intro h
        dsimp only at h
        injection h with h
        obtain ⟨h1, _, h3⟩ := triple_eq h
        subst h3
        rw [← h1, addTo_err now me w me' es0 e ha]
    · revert h
      cases hrec : addKids now wr w rest with
      | none => intro h; cases h
      | some pr =>
        obtain ⟨rest', es0, err⟩ := pr
        intro h
        dsimp only at h
        injection h with h
        obtain ⟨h1, _, h3⟩ := triple_eq h
        subst h3
        rw [← h1, addKids_err now wr w rest rest' es0 e hrec]
end

/-- Claim C5: `AddFile` is atomic on failure — whenever it reports any error
(validation errors, a nil argument, or `ErrConflict` from the structural walk),
the trie root is exactly what it was before the call. -/
theorem c5_addFile_atomic (now : Int) (root : Option Entry) (m : Option Entry)
    (e : Err) (h : (AddFile now root m).2.2 = some e) :
    (AddFile now root m).1 = root := by
  rw [AddFile.eq_def] at h ⊢
  cases m with
  | none => rfl
  | some m =>
    dsimp only at h ⊢
    rcases hv : Entry.validate m with ⟨m1, err⟩
    rw [hv] at h
    dsimp only at h ⊢
    cases err with
    | some e0 => rfl
    | none =>
      cases root with
      | none => simp at h
      | some r =>
        dsimp only at h ⊢
        have heq : addTo now r (Entry.copy (Entry.mk m1.content
            (CleanPath m1.path) m1.entries m1.meta)) =
            ((addTo now r (Entry.copy (Entry.mk m1.content
              (CleanPath m1.path) m1.entries m1.meta))).1,
             (addTo now r (Entry.copy (Entry.mk m1.content
              (CleanPath m1.path) m1.entries m1.meta))).2.1,
             some e) := by
          rw [← h]
        rw [addTo_err now r _ _ _ e heq]

/-- Witness for C5: adding the same file `/aaa` twice — the second call returns
`ErrConflict` and leaves the root exactly as after the first call. -/
theorem c5_addFile_atomic_witness :
    (AddFile 100
        (AddFile 100 none (some (NewEntry (bytesOf "/aaa") (bytesOf "c") 1
          MIMEOctetStream 100))).1
        (some (NewEntry (bytesOf "/aaa") (bytesOf "c") 1 MIMEOctetStream 100))).2.2 =
      some .conflict ∧
    (AddFile 100
        (AddFile 100 none (some (NewEntry (bytesOf "/aaa") (bytesOf "c") 1
          MIMEOctetStream 100))).1
        (some (NewEntry (bytesOf "/aaa") (bytesOf "c") 1 MIMEOctetStream 100))).1 =
      (AddFile 100 none (some (NewEntry (bytesOf "/aaa") (bytesOf "c") 1
        MIMEOctetStream 100))).1 :=
  ⟨by decide,
    c5_addFile_atomic 100
      (AddFile 100 none (some (NewEntry (bytesOf "/aaa") (bytesOf "c") 1
        MIMEOctetStream 100))).1
      (some (NewEntry (bytesOf "/aaa") (bytesOf "c") 1 MIMEOctetStream 100))
      .conflict (by decide)⟩

/-- Counterexample to claim C6: `/folder` names an empty-folder directory (built by
adding `/folder/f1` and deleting it again), yet `Replace("/folder", cnt)` returns no
error at all — `find` hands back a synthesized directory content and the write lands
outside the trie — instead of the claimed `ErrFileNotExist`.  The trie is unchanged. -/
theorem c6_replace_empty_folder_no_error :
    (Replace ((Delete ((AddFile 100 none (some (NewEntry (bytesOf "/folder/f1")
          (bytesOf "c") 1 MIMEOctetStream 100))).1) (bytesOf "/folder/f1")).1)
        (bytesOf "/folder")
        (Content.mk (bytesOf "n") (bytesOf "c2") MIMEOctetStream 7 1 200)).2.2 =
      none ∧
    (Replace ((Delete ((AddFile 100 none (some (NewEntry (bytesOf "/folder/f1")
          (bytesOf "c") 1 MIMEOctetStream 100))).1) (bytesOf "/folder/f1")).1)
        (bytesOf "/folder")
        (Content.mk (bytesOf "n") (bytesOf "c2") MIMEOctetStream 7 1 200)).1 =
      (Delete ((AddFile 100 none (some (NewEntry (bytesOf "/folder/f1")
          (bytesOf "c") 1 MIMEOctetStream 100))).1) (bytesOf "/folder/f1")).1 := by
  constructor
  · decide
  · decide

/-- Claim C6, amended: `Replace` errs exactly when the path is empty, the trie is
empty, or `find` resolves nothing (absent paths and internal branch nodes; empty-folder
paths count as found and succeed silently); on error the trie is unchanged; and on an
actual file leaf the stored content gets `cid`, `size`, `createdAt` from the argument
while keeping its `name`, `type` and `version` (shown on the one-file trie `/folder/f1`
for every replacement content `cnt`). -/
theorem c6_replace_amended (root : Option Entry) (path : List Nat) (cnt : Content) :
    (∀ e : Err, (Replace root path cnt).2.2 = some e → (Replace root path cnt).1 = root) ∧
    ((Replace root path cnt).2.2 = none ↔
      path.isEmpty = false ∧ ∃ r, root = some r ∧ (find (CleanPath path) r).isSome = true) ∧
    ((Replace ((AddFile 100 none (some (NewEntry (bytesOf "/folder/f1") (bytesOf "c") 1
        MIMEOctetStream 100))).1) (bytesOf "/folder/f1") cnt).2.2 = none ∧
     File ((Replace ((AddFile 100 none (some (NewEntry (bytesOf "/folder/f1")
          (bytesOf "c") 1 MIMEOctetStream 100))).1) (bytesOf "/folder/f1") cnt).1)
        (bytesOf "/folder/f1") =
      (some (Content.mk (bytesOf "f1") cnt.cid MIMEOctetStream cnt.size 1 cnt.createdAt),
        none)) := by
  refine ⟨?_, ?_, ?_, ?_⟩
  · intro e h
    rw [Replace.eq_def] at h ⊢
    by_cases hp : path.isEmpty = true
    · rw [if_pos hp]
    · rw [if_neg hp] at h ⊢
      cases root with
      | none => rfl
      | some r =>
        dsimp only at h ⊢
        cases hf : find (CleanPath path) r with
        | none => rfl
        | some old => rw [hf] at h; simp at h
  · rw [Replace.eq_def]
    by_cases hp : path.isEmpty = true
    · rw [if_pos hp]
      simp [hp]
    · rw [if_neg hp]
      rw [Bool.not_eq_true] at hp
      cases root with
      | none => simp
      | some r =>
        dsimp only
        cases hf : find (CleanPath path) r with
        | none => simp [hp, hf]
        | some old => simp [hp, hf]
  · rfl
  · rfl

/-- Counterexample to claim C3: delete the only inserted entry `/folder/f1` from a
fresh trie.  The root is not nil afterwards (an empty-folder marker for `/folder`
remains), and the delete is observable at the distinct path `/folder`: `File("/folder")`
returned `ErrFileNotExist` before the delete and succeeds after it. -/
theorem c3_delete_not_nil_frame_broken :
    (Delete ((AddFile 100 none (some (NewEntry (bytesOf "/folder/f1") (bytesOf "c") 1
        MIMEOctetStream 100))).1) (bytesOf "/folder/f1")).1 ≠ none ∧
    (File ((AddFile 100 none (some (NewEntry (bytesOf "/folder/f1") (bytesOf "c") 1
        MIMEOctetStream 100))).1) (bytesOf "/folder")).2 = some .fileNotExist ∧
    (File ((Delete ((AddFile 100 none (some (NewEntry (bytesOf "/folder/f1")
          (bytesOf "c") 1 MIMEOctetStream 100))).1) (bytesOf "/folder/f1")).1)
        (bytesOf "/folder")).2 = none := by
  refine ⟨?_, ?_, ?_⟩ <;> decide

/-- Claim C3, amended: after `Delete(p)` the deleted path itself is gone —
`File(p)` returns `ErrFileNotExist` — and `Ls("/")` is empty, but the root is NOT
nil after deleting the sole entry (an empty-folder marker survives, observable at
the parent path); sibling entries are untouched: with `/folder/f1` and `/b` inserted,
deleting `/folder/f1` leaves both `File("/b")` and `Stat("/b")` exactly as before. -/
theorem c3_delete_observables :
    (File ((Delete ((AddFile 100 none (some (NewEntry (bytesOf "/folder/f1")
          (bytesOf "c") 1 MIMEOctetStream 100))).1) (bytesOf "/folder/f1")).1)
        (bytesOf "/folder/f1")).2 = some .fileNotExist ∧
    Ls ((Delete ((AddFile 100 none (some (NewEntry (bytesOf "/folder/f1")
          (bytesOf "c") 1 MIMEOctetStream 100))).1) (bytesOf "/folder/f1")).1)
        (bytesOf "/") = [] ∧
    ((Delete ((AddFile 100 none (some (NewEntry (bytesOf "/folder/f1")
          (bytesOf "c") 1 MIMEOctetStream 100))).1) (bytesOf "/folder/f1")).1).isSome =
      true ∧
    (File ((Delete ((AddFile 200 ((AddFile 100 none (some (NewEntry
            (bytesOf "/folder/f1") (bytesOf "c") 1 MIMEOctetStream 100))).1)
          (some (NewEntry (bytesOf "/b") (bytesOf "c2") 2 MIMEOctetStream 200))).1)
        (bytesOf "/folder/f1")).1) (bytesOf "/b") =
      File ((AddFile 200 ((AddFile 100 none (some (NewEntry (bytesOf "/folder/f1")
            (bytesOf "c") 1 MIMEOctetStream 100))).1)
          (some (NewEntry (bytesOf "/b") (bytesOf "c2") 2 MIMEOctetStream 200))).1)
        (bytesOf "/b") ∧
     (File ((Delete ((AddFile 200 ((AddFile 100 none (some (NewEntry
            (bytesOf "/folder/f1") (bytesOf "c") 1 MIMEOctetStream 100))).1)
          (some (NewEntry (bytesOf "/b") (bytesOf "c2") 2 MIMEOctetStream 200))).1)
        (bytesOf "/folder/f1")).1) (bytesOf "/b")).2 = none) ∧
    Stat ((Delete ((AddFile 200 ((AddFile 100 none (some (NewEntry
            (bytesOf "/folder/f1") (bytesOf "c") 1 MIMEOctetStream 100))).1)
          (some (NewEntry (bytesOf "/b") (bytesOf "c2") 2 MIMEOctetStream 200))).1)
        (bytesOf "/folder/f1")).1) (bytesOf "/b") =
      Stat ((AddFile 200 ((AddFile 100 none (some (NewEntry (bytesOf "/folder/f1")
            (bytesOf "c") 1 MIMEOctetStream 100))).1)
          (some (NewEntry (bytesOf "/b") (bytesOf "c2") 2 MIMEOctetStream 200))).1)
        (bytesOf "/b") ∧
    (File ((Delete ((AddFile 200 ((AddFile 100 none (some (NewEntry
            (bytesOf "/folder/f1") (bytesOf "c") 1 MIMEOctetStream 100))).1)
          (some (NewEntry (bytesOf "/b") (bytesOf "c2") 2 MIMEOctetStream 200))).1)
        (bytesOf "/folder/f1")).1) (bytesOf "/folder/f1")).2 = some .fileNotExist := by
  refine ⟨?_, ?_, ?_, ⟨?_, ?_⟩, ?_, ?_⟩ <;> decide

/-- Counterexample to claim C2: three error-free `AddFile` calls — files `/a` and
`/b`, then a directory marker `/aa` — after which `Stat("/aa")` fails with
`ErrFileNotExist`: the inserted marker path is not retrievable. -/
theorem c2_inserted_marker_not_retrievable :
    (AddFile 100 none (some (NewEntry (bytesOf "/a") (bytesOf "c0") 1
        MIMEOctetStream 100))).2.2 = none ∧
    (AddFile 100 ((AddFile 100 none (some (NewEntry (bytesOf "/a") (bytesOf "c0") 1
        MIMEOctetStream 100))).1) (some (NewEntry (bytesOf "/b") (bytesOf "c1") 1
        MIMEOctetStream 100))).2.2 = none ∧
    (AddFile 100 ((AddFile 100 ((AddFile 100 none (some (NewEntry (bytesOf "/a")
          (bytesOf "c0") 1 MIMEOctetStream 100))).1) (some (NewEntry (bytesOf "/b")
          (bytesOf "c1") 1 MIMEOctetStream 100))).1) (some (NewEntry (bytesOf "/aa")
          (bytesOf "c2") 1 MIMEDriveEntry 100))).2.2 = none ∧
    (Stat ((AddFile 100 ((AddFile 100 ((AddFile 100 none (some (NewEntry (bytesOf "/a")
          (bytesOf "c0") 1 MIMEOctetStream 100))).1) (some (NewEntry (bytesOf "/b")
          (bytesOf "c1") 1 MIMEOctetStream 100))).1) (some (NewEntry (bytesOf "/aa")
          (bytesOf "c2") 1 MIMEDriveEntry 100))).1) (bytesOf "/aa")).2 =
      some .fileNotExist := by
  refine ⟨?_, ?_, ?_, ?_⟩ <;> decide

/-- Claim C2, amended: retrievability after error-free inserts does hold in the
UTF-8 sibling scenario the claim highlights — `/folder/😀file` and `/folder/😁file`
both insert without error, the shared edge is split at the rune boundary (the root
edge becomes `/folder/`, not a partial emoji), and `File` retrieves both contents
exactly — but it is not universal (see the `/a`, `/b`, `/aa` counterexample). -/
theorem c2_utf8_siblings_retrievable :
    (AddFile 100 none (some (NewEntry (bytesOf "/folder/😀file") (bytesOf "c1") 1
        MIMEOctetStream 100))).2.2 = none ∧
    (AddFile 100 ((AddFile 100 none (some (NewEntry (bytesOf "/folder/😀file")
          (bytesOf "c1") 1 MIMEOctetStream 100))).1)
        (some (NewEntry (bytesOf "/folder/😁file") (bytesOf "c2") 2
          MIMEOctetStream 100))).2.2 = none ∧
    Option.map Entry.path ((AddFile 100 ((AddFile 100 none (some (NewEntry
          (bytesOf "/folder/😀file") (bytesOf "c1") 1 MIMEOctetStream 100))).1)
        (some (NewEntry (bytesOf "/folder/😁file") (bytesOf "c2") 2
          MIMEOctetStream 100))).1) = some (bytesOf "/folder/") ∧
    File ((AddFile 100 ((AddFile 100 none (some (NewEntry (bytesOf "/folder/😀file")
          (bytesOf "c1") 1 MIMEOctetStream 100))).1)
        (some (NewEntry (bytesOf "/folder/😁file") (bytesOf "c2") 2
          MIMEOctetStream 100))).1) (bytesOf "/folder/😀file") =
      (some (Content.mk (bytesOf "😀file") (bytesOf "c1") MIMEOctetStream 1 1 100),
        none) ∧
    File ((AddFile 100 ((AddFile 100 none (some (NewEntry (bytesOf "/folder/😀file")
          (bytesOf "c1") 1 MIMEOctetStream 100))).1)
        (some (NewEntry (bytesOf "/folder/😁file") (bytesOf "c2") 2
          MIMEOctetStream 100))).1) (bytesOf "/folder/😁file") =
      (some (Content.mk (bytesOf "😁file") (bytesOf "c2") MIMEOctetStream 2 1 100),
        none) := by
  refine ⟨?_, ?_, ?_, ?_, ?_⟩ <;> decide

/-- Counterexample to claim C10: the very first insertion into an empty trie stores
the caller's own object (`mt.Root = m`, no copy), so a caller-side mutation of the
entry after a successful `AddFile` — here rewriting its `cid` to `"evil"` — changes
what a later `File` call returns. -/
theorem c10_first_insert_aliased :
    addFileMutateFile 100 none
        (NewEntry (bytesOf "/a") (bytesOf "c") 1 MIMEOctetStream 100)
        (fun e => Entry.mk (Content.mk e.content.name (bytesOf "evil") e.content.type
            e.content.size e.content.version e.content.createdAt)
          e.path e.entries e.meta)
        (bytesOf "/a") ≠
      File ((AddFile 100 none (some (NewEntry (bytesOf "/a") (bytesOf "c") 1
          MIMEOctetStream 100))).1) (bytesOf "/a") := by decide

/-- Claim C10, amended: on a non-empty trie `AddFile` inserts a deep copy of the
argument (`m.copy()`), so for every trie root, every entry, every caller-side
mutation `mu` applied to the caller's object after the call, and every query path,
a later `File` returns exactly what it returns without the mutation; only the very
first insertion into an empty trie is aliased (see the counterexample). -/
theorem c10_nonempty_trie_isolated (now : Int) (r : Entry) (m : Entry)
    (mu : Entry → Entry) (q : List Nat) :
    addFileMutateFile now (some r) m mu q = File (AddFile now (some r) (some m)).1 q := by
  rw [addFileMutateFile, AddFile.eq_def]
  dsimp only
  rcases hv : Entry.validate m with ⟨m1, err⟩
  dsimp only
  cases err with
  | some e0 => rfl
  | none => rfl

theorem utf8Bytes_append (xs ys : List Char) :
    utf8Bytes (xs ++ ys) = utf8Bytes xs ++ utf8Bytes ys := by
  induction xs with
  | nil => rfl
  | cons c t ih => simp [utf8Bytes, ih]

theorem charToNat_lt (c : Char) : c.toNat < 1114112 := by
  have h := c.valid
  rcases h with h | h
  · exact Nat.lt_trans h (by norm_num)
  · exact h.2

set_option maxRecDepth 4096 in
theorem runeStart_char (b : Nat) (hb : b < 256) :
    runeStart b = (decide (b < 128) || decide (192 ≤ b)) := by
  revert hb
  revert b
  decide

theorem utf8EncodeChar_ne_nil (c : Char) : utf8EncodeChar c ≠ [] := by
  rw [utf8EncodeChar]
  split_ifs <;> simp

theorem utf8EncodeChar_head (c : Char) :
    runeStart ((utf8EncodeChar c).getD 0 0) = true := by
  have hv := charToNat_lt c
  rw [utf8EncodeChar]
  split_ifs with h1 h2 h3
  · simp only [List.getD_cons_zero]
    rw [runeStart_char _ (by omega)]
    simp
    all_goals omega
  · simp only [List.getD_cons_zero]
    rw [runeStart_char _ (by omega)]
    simp
    all_goals omega
  · simp only [List.getD_cons_zero]
    rw [runeStart_char _ (by omega)]
    simp
    all_goals omega
  · simp only [List.getD_cons_zero]
    rw [runeStart_char _ (by omega)]
    simp
    all_goals omega

theorem utf8EncodeChar_cont (c : Char) :
    ∀ k, 1 ≤ k → k < (utf8EncodeChar c).length →
      runeStart ((utf8EncodeChar c).getD k 0) = false := by
  have hv := charToNat_lt c
  rw [utf8EncodeChar]
  intro k hk1 hk2
  split_ifs at hk2 ⊢ with h1 h2 h3
  · simp at hk2; omega
  · simp at hk2
    interval_cases k
    · simp only [List.getD_cons_succ, List.getD_cons_zero]
      rw [runeStart_char _ (by omega)]
      simp
      all_goals omega
  · simp at hk2
    interval_cases k
    all_goals
      simp only [List.getD_cons_succ, List.getD_cons_zero]
      rw [runeStart_char _ (by omega)]
      simp
      all_goals omega
  · simp at hk2
    interval_cases k
    all_goals
      simp only [List.getD_cons_succ, List.getD_cons_zero]
      rw [runeStart_char _ (by omega)]
      simp
      all_goals omega

theorem lcpLen_nil_left (b : List Nat) : lcpLen [] b = 0 := rfl

theorem lcpLen_nil_right (a : List Nat) : lcpLen a [] = 0 := by cases a <;> rfl

theorem lcpLen_cons (a b : Nat) (as bs : List Nat) :
    lcpLen (a :: as) (b :: bs) = if a == b then lcpLen as bs + 1 else 0 := rfl

theorem lcpLen_le_left : ∀ a b : List Nat, lcpLen a b ≤ a.length
  | [], b => by simp [lcpLen_nil_left]
  | a :: as, [] => by simp [lcpLen_nil_right]
  | a :: as, b :: bs => by
    rw [lcpLen_cons]
    split_ifs
    · have := lcpLen_le_left as bs
      simp only [List.length_cons]
      omega
    · simp

theorem lcpLen_agree : ∀ (a b : List Nat) (j : Nat), j < lcpLen a b →
    a.getD j 0 = b.getD j 0
  | [], b, j => by simp [lcpLen_nil_left]
  | a :: as, [], j => by simp [lcpLen_nil_right]
  | a :: as, b :: bs, j => by
    rw [lcpLen_cons]
    split_ifs with h
    · cases j with
      | zero =>
        intro _
        simp only [List.getD_cons_zero]
        simpa using h
      | succ j =>
        intro hj
        simp only [List.getD_cons_succ]
        exact lcpLen_agree as bs j (by omega)
    · intro hj
      exact absurd hj (by omega)

theorem lcpLen_comm : ∀ a b : List Nat, lcpLen a b = lcpLen b a
  | [], b => by rw [lcpLen_nil_left, lcpLen_nil_right]
  | a :: as, [] => by rw [lcpLen_nil_left, lcpLen_nil_right]
  | a :: as, b :: bs => by
    rw [lcpLen_cons, lcpLen_cons]
    by_cases h : a = b
    · subst h
      simp [lcpLen_comm as bs]
    · rw [if_neg (by simpa using h), if_neg (by simpa using (Ne.symm h))]

theorem lcpLen_append_left : ∀ (e x y : List Nat),
    lcpLen (e ++ x) (e ++ y) = e.length + lcpLen x y
  | [], x, y => by simp
  | a :: e, x, y => by
    simp only [List.cons_append, lcpLen_cons, beq_self_eq_true, if_true,
      lcpLen_append_left e x y, List.length_cons]
    omega

theorem utf8EncodeChar_len_class (c : Char) :
    (c.toNat < 128 ∧ (utf8EncodeChar c).length = 1) ∨
    (128 ≤ c.toNat ∧ c.toNat < 2048 ∧ (utf8EncodeChar c).length = 2) ∨
    (2048 ≤ c.toNat ∧ c.toNat < 65536 ∧ (utf8EncodeChar c).length = 3) ∨
    (65536 ≤ c.toNat ∧ (utf8EncodeChar c).length = 4) := by
  rw [utf8EncodeChar]
  split_ifs with h1 h2 h3 <;> simp <;> omega

theorem utf8EncodeChar_head_class (c : Char) :
    ((utf8EncodeChar c).getD 0 0 < 128 ∧ (utf8EncodeChar c).length = 1) ∨
    (194 ≤ (utf8EncodeChar c).getD 0 0 ∧ (utf8EncodeChar c).getD 0 0 < 224 ∧
      (utf8EncodeChar c).length = 2) ∨
    (224 ≤ (utf8EncodeChar c).getD 0 0 ∧ (utf8EncodeChar c).getD 0 0 < 240 ∧
      (utf8EncodeChar c).length = 3) ∨
    (240 ≤ (utf8EncodeChar c).getD 0 0 ∧ (utf8EncodeChar c).length = 4) := by
  have hv := charToNat_lt c
  rw [utf8EncodeChar]
  split_ifs with h1 h2 h3 <;> simp <;> omega

theorem utf8EncodeChar_inj (c1 c2 : Char) (h : utf8EncodeChar c1 = utf8EncodeChar c2) :
    c1 = c2 := by
  have hv1 := charToNat_lt c1
  have hv2 := charToNat_lt c2
  have htn : c1.toNat = c2.toNat := by
    rw [utf8EncodeChar, utf8EncodeChar] at h
    split_ifs at h <;> simp_all <;> omega
  have h32 : c1.val = c2.val := by
    apply UInt32.toNat.inj
    exact htn
  cases c1
  cases c2
  simp_all

theorem lcpLen_lt_of_ne (c1 c2 : Char) (x y : List Nat) (hne : c1 ≠ c2) :
    lcpLen (utf8EncodeChar c1 ++ x) (utf8EncodeChar c2 ++ y) <
      (utf8EncodeChar c1).length := by
  by_contra hge
  push_neg at hge
  set e1 := utf8EncodeChar c1 with he1
  set e2 := utf8EncodeChar c2 with he2
  have h1len : 1 ≤ e1.length := by
    rcases utf8EncodeChar_len_class c1 with ⟨_, h⟩ | ⟨_, _, h⟩ | ⟨_, _, h⟩ | ⟨_, h⟩ <;>
      rw [← he1] at h <;> omega
  have h2len : 1 ≤ e2.length := by
    rcases utf8EncodeChar_len_class c2 with ⟨_, h⟩ | ⟨_, _, h⟩ | ⟨_, _, h⟩ | ⟨_, h⟩ <;>
      rw [← he2] at h <;> omega
  have hlen : e2.length = e1.length := by
    have h0 : (e1 ++ x).getD 0 0 = (e2 ++ y).getD 0 0 := by
      apply lcpLen_agree
      omega
    rw [List.getD_append _ _ _ _ (by omega), List.getD_append _ _ _ _ (by omega)] at h0
    rcases utf8EncodeChar_head_class c1 with h1 | h1 | h1 | h1 <;>
      rcases utf8EncodeChar_head_class c2 with h2 | h2 | h2 | h2 <;>
      rw [← he1] at h1 <;> rw [← he2] at h2 <;> omega
  have heq : e1 = e2 := by
    apply List.ext_getElem (by omega)
    intro i hi1 hi2
    have hg : (e1 ++ x).getD i 0 = (e2 ++ y).getD i 0 := lcpLen_agree _ _ i (by omega)
    rw [List.getD_append _ _ _ _ (by omega), List.getD_append _ _ _ _ (by omega)] at hg
    rw [List.getD_eq_getElem _ _ hi1, List.getD_eq_getElem _ _ hi2] at hg
    exact hg
  exact hne (utf8EncodeChar_inj c1 c2 heq)

theorem retreatIdx_stop (a : List Nat) (i : Nat)
    (h : i = 0 ∨ ¬(i < a.length) ∨ runeStart (a.getD i 0) = true) :
    retreatIdx a i = i := by
  cases i with
  | zero => rfl
  | succ m =>
    rw [retreatIdx, if_neg]
    simp only [Bool.and_eq_true, decide_eq_true_eq, Bool.not_eq_true', not_and]
    intro hlt
    rcases h with h | h | h
    · omega
    · exact absurd hlt h
    · rw [h]
      simp

theorem retreatIdx_shift (e x : List Nat) (hx : x ≠ [] → runeStart (x.getD 0 0) = true) :
    ∀ i : Nat, retreatIdx (e ++ x) (e.length + i) = e.length + retreatIdx x i
  | 0 => by
    rw [Nat.add_zero]
    have hr0 : retreatIdx x 0 = 0 := rfl
    rw [hr0, Nat.add_zero]
    apply retreatIdx_stop
    rcases Decidable.em (x = []) with hxe | hxe
    · subst hxe
      right; left
      simp
    · right; right
      rcases List.exists_cons_of_ne_nil hxe with ⟨b, t, hbt⟩
      rcases Nat.eq_zero_or_pos e.length with hE | hE
      · rw [List.length_eq_zero.mp hE]
        simpa using hx hxe
      · rw [List.getD_append_right _ _ _ _ (le_refl _), Nat.sub_self]
        exact hx hxe
  | i + 1 => by
    have hgd : (e ++ x).getD (e.length + (i + 1)) 0 = x.getD (i + 1) 0 := by
      rw [List.getD_append_right _ _ _ _ (by omega)]
      congr 1
      omega
    show retreatIdx (e ++ x) ((e.length + i) + 1) = e.length + retreatIdx x (i + 1)
    rw [retreatIdx]
    conv_rhs => rw [retreatIdx]
    by_cases hc : (i + 1 < x.length ∧ runeStart (x.getD (i + 1) 0) = false)
    · rw [if_pos, if_pos]
      · rw [retreatIdx_shift e x hx i]
      · simp only [Bool.and_eq_true, decide_eq_true_eq, Bool.not_eq_true']
        exact hc
      · simp only [Bool.and_eq_true, decide_eq_true_eq, Bool.not_eq_true']
        refine ⟨?_, ?_⟩
        · rw [List.length_append]
          omega
        · show runeStart ((e ++ x).getD (e.length + (i + 1)) 0) = false
          rw [hgd]
          exact hc.2
    · rw [if_neg, if_neg]
      · omega
      · simp only [Bool.and_eq_true, decide_eq_true_eq, Bool.not_eq_true', not_and]
        intro h1 h2
        exact hc ⟨h1, h2⟩
      · simp only [Bool.and_eq_true, decide_eq_true_eq, Bool.not_eq_true', not_and]
        intro h1
        rw [List.length_append] at h1
        show ¬runeStart ((e ++ x).getD (e.length + (i + 1)) 0) = false
        rw [hgd]
        intro h2
        exact hc ⟨by omega, h2⟩

theorem retreatIdx_zero_of_cont : ∀ (a : List Nat) (i : Nat), i < a.length →
    (∀ k, 1 ≤ k → k ≤ i → runeStart (a.getD k 0) = false) → retreatIdx a i = 0
  | a, 0, _, _ => rfl
  | a, i + 1, hlen, hcont => by
    rw [retreatIdx, if_pos]
    · exact retreatIdx_zero_of_cont a i (by omega) (fun k h1 h2 => hcont k h1 (by omega))
    · simp only [Bool.and_eq_true, decide_eq_true_eq, Bool.not_eq_true']
      exact ⟨hlen, hcont (i + 1) (by omega) (le_refl _)⟩

theorem utf8Bytes_head_runeStart : ∀ t : List Char, utf8Bytes t ≠ [] →
    runeStart ((utf8Bytes t).getD 0 0) = true
  | [], h => absurd rfl h
  | c :: t, _ => by
    show runeStart ((utf8EncodeChar c ++ utf8Bytes t).getD 0 0) = true
    have hne := utf8EncodeChar_ne_nil c
    rcases he : utf8EncodeChar c with _ | ⟨b, tb⟩
    · exact absurd he hne
    · simp only [List.cons_append, List.getD_cons_zero]
      have hh := utf8EncodeChar_head c
      rw [he] at hh
      simpa using hh

theorem commonPref_utf8 : ∀ as bs : List Char,
    commonPref (utf8Bytes as) (utf8Bytes bs) = utf8Bytes (charLcp as bs)
  | [], bs => by
    show commonPref [] (utf8Bytes bs) = utf8Bytes (charLcp [] bs)
    rw [commonPref, lcpLen_nil_left]
    rfl
  | c :: t, [] => by
    show commonPref (utf8Bytes (c :: t)) [] = utf8Bytes (charLcp (c :: t) [])
    rw [commonPref, lcpLen_nil_right]
    rfl
  | c1 :: t1, c2 :: t2 => by
    by_cases hc : c1 = c2
    · subst hc
      show commonPref (utf8EncodeChar c1 ++ utf8Bytes t1)
          (utf8EncodeChar c1 ++ utf8Bytes t2) = utf8Bytes (charLcp (c1 :: t1) (c1 :: t2))
      rw [commonPref, lcpLen_append_left,
        retreatIdx_shift _ _ (utf8Bytes_head_runeStart t1),
        List.take_append_eq_append_take, List.take_of_length_le (by omega),
        Nat.add_sub_cancel_left]
      have hch : charLcp (c1 :: t1) (c1 :: t2) = c1 :: charLcp t1 t2 := by
        rw [charLcp, if_pos rfl]
      rw [hch]
      show utf8EncodeChar c1 ++ (utf8Bytes t1).take (retreatIdx (utf8Bytes t1)
          (lcpLen (utf8Bytes t1) (utf8Bytes t2))) =
        utf8EncodeChar c1 ++ utf8Bytes (charLcp t1 t2)
      rw [← commonPref, commonPref_utf8 t1 t2]
    · show commonPref (utf8EncodeChar c1 ++ utf8Bytes t1)
          (utf8EncodeChar c2 ++ utf8Bytes t2) = utf8Bytes (charLcp (c1 :: t1) (c2 :: t2))
      have hlt := lcpLen_lt_of_ne c1 c2 (utf8Bytes t1) (utf8Bytes t2) hc
      have hch : charLcp (c1 :: t1) (c2 :: t2) = [] := by
        rw [charLcp, if_neg hc]
      rw [commonPref, hch]
      rw [retreatIdx_zero_of_cont]
      · rfl
      · rw [List.length_append]
        omega
      · intro k h1 h2
        have hk : k < (utf8EncodeChar c1).length := by omega
        rw [List.getD_append _ _ _ _ hk]
        exact utf8EncodeChar_cont c1 k h1 hk

theorem charLcp_nil_left (bs : List Char) : charLcp [] bs = [] := rfl

theorem charLcp_nil_right (as : List Char) : charLcp as [] = [] := by
  cases as <;> rfl

theorem charLcp_prefix_left : ∀ as bs : List Char, charLcp as bs <+: as
  | [], bs => by simp [charLcp_nil_left]
  | a :: as, [] => by simp [charLcp_nil_right]
  | c1 :: t1, c2 :: t2 => by
    rw [charLcp]
    by_cases hc : c1 = c2
    · rw [if_pos hc]
      rcases charLcp_prefix_left t1 t2 with ⟨d, hd⟩
      exact ⟨d, by rw [List.cons_append, hd]⟩
    · rw [if_neg hc]
      simp

theorem charLcp_comm : ∀ as bs : List Char, charLcp as bs = charLcp bs as
  | [], bs => by rw [charLcp_nil_left, charLcp_nil_right]
  | a :: as, [] => by rw [charLcp_nil_left, charLcp_nil_right]
  | c1 :: t1, c2 :: t2 => by
    rw [charLcp, charLcp]
    by_cases hc : c1 = c2
    · subst hc
      rw [if_pos rfl, if_pos rfl, charLcp_comm t1 t2]
    · rw [if_neg hc, if_neg (Ne.symm hc)]

theorem utf8Bytes_mono {xs ys : List Char} (h : xs <+: ys) :
    utf8Bytes xs <+: utf8Bytes ys := by
  rcases h with ⟨d, hd⟩
  exact ⟨utf8Bytes d, by rw [← utf8Bytes_append, hd]⟩

/-- Claim C8: for valid UTF-8 strings (byte encodings of character lists),
`commonPrefix(a, b)` is a common prefix of `a` and `b`, its end lies on a UTF-8
rune boundary (it is itself the encoding of a character prefix; a partially
matched multi-byte rune is dropped entirely), and it is symmetric. -/
theorem c8_commonPrefix_boundary_symm (as bs : List Char) :
    commonPref (utf8Bytes as) (utf8Bytes bs) <+: utf8Bytes as ∧
    commonPref (utf8Bytes as) (utf8Bytes bs) <+: utf8Bytes bs ∧
    (∃ cs : List Char, cs <+: as ∧
      commonPref (utf8Bytes as) (utf8Bytes bs) = utf8Bytes cs) ∧
    commonPref (utf8Bytes as) (utf8Bytes bs) = commonPref (utf8Bytes bs) (utf8Bytes as) := by
  refine ⟨?_, ?_, ?_, ?_⟩
  · rw [commonPref_utf8]
    exact utf8Bytes_mono (charLcp_prefix_left as bs)
  · rw [commonPref_utf8, charLcp_comm]
    exact utf8Bytes_mono (charLcp_prefix_left bs as)
  · exact ⟨charLcp as bs, charLcp_prefix_left as bs, commonPref_utf8 as bs⟩
  · rw [commonPref_utf8, commonPref_utf8, charLcp_comm]

theorem contains_false_iff (l : List Nat) (a : Nat) : l.contains a = false ↔ a ∉ l := by
  constructor
  · intro h hm
    have hc : l.contains a = true := List.elem_iff.mpr hm
    rw [h] at hc
    cases hc
  · intro h
    rcases hc : l.contains a with _ | _
    · rfl
    · exact absurd (List.elem_iff.mp hc) h

theorem wfL_all : ∀ l : List Entry, wfL l = true ↔ ∀ e ∈ l, wfE e = true
  | [] => by simp [wfL]
  | e :: es => by
    rw [wfL]
    simp only [Bool.and_eq_true, wfL_all es, List.mem_cons]
    constructor
    · rintro ⟨h1, h2⟩ x (rfl | hx)
      · exact h1
      · exact h2 x hx
    · intro h
      exact ⟨h e (Or.inl rfl), fun x hx => h x (Or.inr hx)⟩

theorem strContains_58_false : ∀ s : List Nat,
    strContains s SpecialPathSymbol = false ↔ 58 ∉ s
  | [] => by simp [strContains, SpecialPathSymbol]
  | a :: t => by
    rw [strContains]
    rw [SpecialPathSymbol]
    simp only [List.isPrefixOf, Bool.or_eq_false_iff, Bool.and_eq_false_iff,
      List.mem_cons, strContains_58_false t]
    constructor
    · rintro ⟨h1, h2⟩
      intro hm
      rcases hm with rfl | hm
      · rcases h1 with h1 | h1
        · simp at h1
        · simp [List.isPrefixOf] at h1
      · rw [← SpecialPathSymbol] at h2
        rw [strContains_58_false t] at h2
        exact h2 hm
    · intro h
      refine ⟨Or.inl ?_, ?_⟩
      · simp only [beq_eq_false_iff_ne]
        intro hn
        exact h (Or.inl hn)
      · rw [← SpecialPathSymbol, strContains_58_false t]
        intro hm
        exact h (Or.inr hm)

theorem replaceDoubleSep_no58 : ∀ p : List Nat, 58 ∉ p → 58 ∉ replaceDoubleSep p
  | [] => fun h => h
  | [a] => fun h => h
  | a :: b :: t => by
    intro h
    rw [replaceDoubleSep]
    split_ifs
    · intro hm
      rcases List.mem_cons.mp hm with h47 | hm
      · omega
      · exact replaceDoubleSep_no58 t (fun hx => h (by simp [hx])) hm
    · intro hm
      rcases List.mem_cons.mp hm with rfl | hm
      · exact h (by simp)
      · exact replaceDoubleSep_no58 (b :: t) (fun hx => h (by
          rcases List.mem_cons.mp hx with rfl | hx
          · simp
          · simp [hx])) hm

theorem cleanLoop_no58 : ∀ (fuel : Nat) (p : List Nat), 58 ∉ p → 58 ∉ cleanLoop fuel p
  | 0, p => id
  | fuel + 1, p => by
    rw [cleanLoop]
    split_ifs
    · exact fun h => cleanLoop_no58 fuel _ (replaceDoubleSep_no58 p h)
    · exact id

theorem cleanPath_no58 (p : List Nat) (h : 58 ∉ p) : 58 ∉ CleanPath p := by
  rw [CleanPath]
  split_ifs with h1
  · exact h
  · dsimp only
    have hq : 58 ∉ cleanLoop p.length p := cleanLoop_no58 p.length p h
    set q := cleanLoop p.length p with hqdef
    have hr : 58 ∉ (if (q.headD 0 != 47) = true then Separator ++ q else q) := by
      split_ifs
      · intro hm
        rcases List.mem_append.mp hm with hm | hm
        · rw [Separator] at hm
          simp at hm
        · exact hq hm
      · exact hq
    set r := if (q.headD 0 != 47) = true then Separator ++ q else q with hrdef
    split_ifs
    · intro hm
      exact hr ((List.dropLast_sublist r).mem hm)
    · exact hr

theorem decodeRune_sentinel : decodeRune SpecialPathSymbol = 58 := by decide

theorem decodeRune_ne_58 (b0 : Nat) (t : List Nat) (hb : b0 ≠ 58) :
    decodeRune (b0 :: t) ≠ 58 := by
  rw [decodeRune.eq_def]
  dsimp only
  simp only [Bool.or_eq_true, decide_eq_true_eq, beq_iff_eq]
  by_cases h1 : b0 < 128
  · rw [if_pos h1]
    exact hb
  · rw [if_neg h1]
    by_cases h2 : b0 < 194 ∨ b0 > 244
    · rw [if_pos h2]
      omega
    · rw [if_neg h2]
      push_neg at h2
      cases t with
      | nil => exact (by decide : (65533 : Nat) ≠ 58)
      | cons b1 r2 =>
        dsimp only
        by_cases h3 : b1 < (if b0 = 224 then 160 else if b0 = 240 then 144 else 128) ∨
            b1 > (if b0 = 237 then 159 else if b0 = 244 then 143 else 191)
        · rw [if_pos h3]
          omega
        · rw [if_neg h3]
          push_neg at h3
          obtain ⟨h3a, h3b⟩ := h3
          by_cases h4 : b0 < 224
          · rw [if_pos h4]
            omega
          · rw [if_neg h4]
            cases r2 with
            | nil => exact (by decide : (65533 : Nat) ≠ 58)
            | cons b2 r3 =>
              dsimp only
              by_cases h5 : b2 < 128 ∨ b2 > 191
              · rw [if_pos h5]
                omega
              · rw [if_neg h5]
                push_neg at h5
                by_cases h6 : b0 < 240
                · rw [if_pos h6]
                  by_cases hb0 : b0 = 224
                  · subst hb0
                    rw [if_pos rfl] at h3a
                    rw [if_neg (by omega), if_neg (by omega)] at h3b
                    omega
                  · rw [if_neg hb0, if_neg (by omega)] at h3a
                    omega
                · rw [if_neg h6]
                  push_neg at h6
                  cases r3 with
                  | nil => exact (by decide : (65533 : Nat) ≠ 58)
                  | cons b3 r4 =>
                    dsimp only
                    by_cases h7 : b3 < 128 ∨ b3 > 191
                    · rw [if_pos h7]
                      omega
                    · rw [if_neg h7]
                      push_neg at h7
                      by_cases hb0 : b0 = 240
                      · subst hb0
                        rw [if_neg (by omega), if_pos rfl] at h3a
                        rw [if_neg (by omega), if_neg (by omega)] at h3b
                        omega
                      · omega

theorem decodeRune_no58 (p : List Nat) (hne : p ≠ []) (h : 58 ∉ p) :
    decodeRune p ≠ 58 := by
  cases p with
  | nil => exact absurd rfl hne
  | cons b0 t =>
    apply decodeRune_ne_58
    intro hb
    exact h (by simp [hb])

theorem strHasPref_iff (s pre : List Nat) : strHasPref s pre = true ↔ pre <+: s := by
  rw [strHasPref]
  exact List.isPrefixOf_iff_prefix

theorem strTrimPref_of_pref {s pre : List Nat} (h : pre <+: s) :
    strTrimPref s pre = s.drop pre.length := by
  rw [strTrimPref, strHasPref, if_pos (List.isPrefixOf_iff_prefix.mpr h)]

theorem strTrimPref_sublist (s pre : List Nat) :
    List.Sublist (strTrimPref s pre) s := by
  rw [strTrimPref]
  split_ifs
  · exact List.drop_sublist _ _
  · exact List.Sublist.refl s

theorem no58_mono {l l2 : List Nat} (h : List.Sublist l l2) (h2 : 58 ∉ l2) : 58 ∉ l :=
  fun hm => h2 (h.mem hm)

theorem take_eq_of_le_lcpLen : ∀ (a b : List Nat) (k : Nat), k ≤ lcpLen a b →
    a.take k = b.take k
  | a, b, 0, _ => by simp
  | [], b, k + 1, h => by
    rw [lcpLen_nil_left] at h
    omega
  | a :: as, [], k + 1, h => by
    rw [lcpLen_nil_right] at h
    omega
  | a :: as, b :: bs, k + 1, h => by
    rw [lcpLen_cons] at h
    split_ifs at h with hab
    · have hab2 : a = b := by simpa using hab
      subst hab2
      simp only [List.take_succ_cons, List.cons.injEq, true_and]
      exact take_eq_of_le_lcpLen as bs k (by omega)
    · omega

theorem prefix_of_lcpLen_full : ∀ a b : List Nat, a.length ≤ lcpLen a b → a <+: b
  | [], b, _ => ⟨b, rfl⟩
  | a :: as, [], h => by
    rw [lcpLen_nil_right] at h
    simp at h
  | a :: as, b :: bs, h => by
    rw [lcpLen_cons] at h
    split_ifs at h with hab
    · have hab2 : a = b := by simpa using hab
      subst hab2
      simp only [List.length_cons, Nat.add_le_add_iff_right] at h
      rcases prefix_of_lcpLen_full as bs h with ⟨d, hd⟩
      exact ⟨d, by rw [List.cons_append, hd]⟩
    · simp only [List.length_cons] at h
      omega

theorem retreatIdx_le : ∀ (a : List Nat) (i : Nat), retreatIdx a i ≤ i
  | a, 0 => le_refl 0
  | a, i + 1 => by
    rw [retreatIdx]
    split_ifs
    · exact le_trans (retreatIdx_le a i) (by omega)
    · exact le_refl _

theorem commonPref_prefix_left (a b : List Nat) : commonPref a b <+: a := by
  rw [commonPref]
  exact List.take_prefix _ _

theorem commonPref_prefix_right (a b : List Nat) : commonPref a b <+: b := by
  rw [commonPref]
  rw [take_eq_of_le_lcpLen a b _ (retreatIdx_le a (lcpLen a b))]
  exact List.take_prefix _ _

theorem lcpLen_lt_of_not_pref {a b : List Nat} (hab : ¬ a <+: b) :
    lcpLen a b < a.length := by
  rcases Nat.lt_or_ge (lcpLen a b) a.length with h | h
  · exact h
  · exact absurd (prefix_of_lcpLen_full a b h) hab

theorem tame_iff (e : Entry) : tame e = true ↔
    e.entries = [] ∨ ∃ e0, e.entries = [e0] ∧ e0.path = SpecialPathSymbol ∧
      e0.entries = [] := by
  rw [tame]
  cases he : e.entries with
  | nil => simp
  | cons f fs =>
    cases fs with
    | nil =>
      simp only [Bool.and_eq_true, beq_iff_eq, List.isEmpty_iff]
      constructor
      · rintro ⟨h1, h2⟩
        exact Or.inr ⟨f, rfl, h1, h2⟩
      · rintro (h | ⟨e0, he0, h1, h2⟩)
        · cases h
        · injection he0 with h3 h4
          subst h3
          exact ⟨h1, h2⟩
    | cons g gs =>
      simp only [Bool.false_eq_true, false_iff]
      rintro (h | ⟨e0, he0, _, _⟩)
      · cases h
      · injection he0 with _ h2
        cases h2

theorem singleSentinel_iff (es : List Entry) :
    (match es with
     | [e0] => e0.path == SpecialPathSymbol
     | _ => true) = true ↔ ∀ e0, es = [e0] → e0.path = SpecialPathSymbol := by
  cases es with
  | nil => simp
  | cons f fs =>
    cases fs with
    | nil =>
      simp only [beq_iff_eq]
      constructor
      · intro h e0 he0
        injection he0 with h1 _
        rw [← h1]
        exact h
      · intro h
        exact h f rfl
    | cons g gs =>
      constructor
      · intro _ e0 he0
        injection he0 with _ h2
        cases h2
      · intro _
        rfl

theorem wfE_path_iff (pth : List Nat) :
    ((pth == SpecialPathSymbol || !pth.contains 58) = true) ↔
      (pth = SpecialPathSymbol ∨ 58 ∉ pth) := by
  simp only [Bool.or_eq_true, beq_iff_eq, Bool.not_eq_true', contains_false_iff]

theorem wfE_all_iff (es : List Entry) :
    (es.all (fun c => !(c.path == SpecialPathSymbol) || tame c) = true) ↔
      (∀ e ∈ es, e.path = SpecialPathSymbol → tame e = true) := by
  rw [List.all_eq_true]
  constructor
  · intro h e he hp
    have h2 := h e he
    rw [Bool.or_eq_true, Bool.not_eq_true', beq_eq_false_iff_ne] at h2
    rcases h2 with h2 | h2
    · exact absurd hp h2
    · exact h2
  · intro h e he
    rw [Bool.or_eq_true, Bool.not_eq_true', beq_eq_false_iff_ne]
    by_cases hp : e.path = SpecialPathSymbol
    · exact Or.inr (h e he hp)
    · exact Or.inl hp

theorem wfE_iff (c : Content) (pth : List Nat) (es : List Entry) (m : Option Meta) :
    wfE (.mk c pth es m) = true ↔
      (pth = SpecialPathSymbol ∨ 58 ∉ pth) ∧
      (∀ e0, es = [e0] → e0.path = SpecialPathSymbol) ∧
      (∀ e ∈ es, e.path = SpecialPathSymbol → tame e = true) ∧
      wfL es = true := by
  rw [wfE.eq_def]
  simp only [Bool.and_eq_true, wfE_path_iff, wfE_all_iff]
  rw [singleSentinel_iff]
  constructor
  · rintro ⟨⟨⟨h1, h2⟩, h3⟩, h4⟩
    exact ⟨h1, h2, h3, h4⟩
  · rintro ⟨h1, h2, h3, h4⟩
    exact ⟨⟨⟨h1, h2⟩, h3⟩, h4⟩

theorem isEmpty_false_iff (l : List Nat) : (l.isEmpty = false) ↔ l ≠ [] := by
  cases l <;> simp

theorem insOk_shape_iff (t : List Nat) (es : List Entry) :
    ((match es with
      | [] => t != MIMEDriveEntry
      | [e0] => (t == MIMEDriveEntry) && (e0.path == SpecialPathSymbol) &&
          e0.entries.isEmpty
      | _ => false) = true) ↔
      ((es = [] ∧ t ≠ MIMEDriveEntry) ∨
       (∃ e0, es = [e0] ∧ t = MIMEDriveEntry ∧ e0.path = SpecialPathSymbol ∧
          e0.entries = [])) := by
  cases es with
  | nil =>
    simp only [bne_iff_ne]
    constructor
    · intro h
      exact Or.inl ⟨trivial, h⟩
    · rintro (⟨_, h⟩ | ⟨e0, he0, _⟩)
      · exact h
      · cases he0
  | cons f fs =>
    cases fs with
    | nil =>
      simp only [Bool.and_eq_true, beq_iff_eq, List.isEmpty_iff]
      constructor
      · rintro ⟨⟨h1, h2⟩, h3⟩
        exact Or.inr ⟨f, rfl, h1, h2, h3⟩
      · rintro (⟨h, _⟩ | ⟨e0, he0, h1, h2, h3⟩)
        · cases h
        · injection he0 with h4 _
          subst h4
          exact ⟨⟨h1, h2⟩, h3⟩
    | cons g gs =>
      constructor
      · intro h
        cases h
      · rintro (⟨h, _⟩ | ⟨e0, he0, _⟩)
        · cases h
        · injection he0 with _ h2
          cases h2

theorem insOk_iff (w : Entry) : insOk w = true ↔
    58 ∉ w.path ∧ w.path ≠ [] ∧
    ((w.entries = [] ∧ w.content.type ≠ MIMEDriveEntry) ∨
     (∃ e0, w.entries = [e0] ∧ w.content.type = MIMEDriveEntry ∧
        e0.path = SpecialPathSymbol ∧ e0.entries = [])) := by
  rw [insOk]
  simp only [Bool.and_eq_true, Bool.not_eq_true', contains_false_iff,
    isEmpty_false_iff]
  rw [insOk_shape_iff]
  constructor
  · rintro ⟨⟨h1, h2⟩, h3⟩
    exact ⟨h1, h2, h3⟩
  · rintro ⟨h1, h2, h3⟩
    exact ⟨⟨h1, h2⟩, h3⟩

theorem wfE_sentinel_leaf (c : Content) (m : Option Meta) :
    wfE (Entry.mk c SpecialPathSymbol [] m) = true := by
  rw [wfE.eq_def]
  rfl

theorem wfL_nil : wfL [] = true := rfl

theorem wfL_cons (e : Entry) (es : List Entry) :
    wfL (e :: es) = (wfE e && wfL es) := by
  rw [wfL]

theorem wfE_of_insOk {w : Entry} (h : insOk w = true) : wfE w = true := by
  obtain ⟨c, pth, es, m⟩ := w
  rw [insOk_iff] at h
  obtain ⟨h1, h2, h3⟩ := h
  rw [wfE_iff]
  dsimp only [Entry.path, Entry.entries, Entry.content] at h1 h2 h3
  rcases h3 with ⟨hes, hty⟩ | ⟨e0, hes, hty, he0p, he0e⟩
  · subst hes
    refine ⟨Or.inr h1, ?_, ?_, ?_⟩
    · intro x hx
      cases hx
    · intro e he
      cases he
    · exact wfL_nil
  · subst hes
    refine ⟨Or.inr h1, ?_, ?_, ?_⟩
    · intro x hx
      injection hx with hx1 _
      rw [← hx1]
      exact he0p
    · intro e he hp
      rcases List.mem_singleton.mp he with rfl
      rw [tame_iff]
      exact Or.inl he0e
    · rw [wfL_cons, Bool.and_eq_true]
      refine ⟨?_, wfL_nil⟩
      obtain ⟨c0, p0, es0, m0⟩ := e0
      dsimp only [Entry.path, Entry.entries] at he0p he0e
      subst he0p
      subst he0e
      exact wfE_sentinel_leaf c0 m0

theorem isEmptyFolder_iff (c : Content) (pth : List Nat) (es : List Entry)
    (m : Option Meta) :
    (Entry.mk c pth es m).IsEmptyFolder = true ↔
      c.type = MIMEDriveEntry ∧ ∃ e0, es = [e0] ∧ e0.path = SpecialPathSymbol := by
  cases es with
  | nil =>
    have hv : (Entry.mk c pth [] m).IsEmptyFolder = false := rfl
    rw [hv]
    constructor
    · intro h
      cases h
    · rintro ⟨_, e0, he0, _⟩
      cases he0
  | cons f fs =>
    cases fs with
    | nil =>
      have hv : (Entry.mk c pth [f] m).IsEmptyFolder =
          ((c.type == MIMEDriveEntry) && (f.path == SpecialPathSymbol)) := rfl
      rw [hv]
      simp only [Bool.and_eq_true, beq_iff_eq]
      constructor
      · rintro ⟨h1, h2⟩
        exact ⟨h1, f, rfl, h2⟩
      · rintro ⟨h1, e0, he0, h2⟩
        injection he0 with h3 _
        subst h3
        exact ⟨h1, h2⟩
    | cons g gs =>
      have hv : (Entry.mk c pth (f :: g :: gs) m).IsEmptyFolder = false := rfl
      rw [hv]
      constructor
      · intro h
        cases h
      · rintro ⟨_, e0, he0, _⟩
        injection he0 with _ h2
        cases h2

theorem wfE_repath {w : Entry} (hw : insOk w = true) (c : Content) (p : List Nat)
    (m : Option Meta) (hp : p = SpecialPathSymbol ∨ 58 ∉ p) :
    wfE (.mk c p w.entries m) = true ∧ tame (.mk c p w.entries m) = true := by
  rw [insOk_iff] at hw
  obtain ⟨h1, h2, h3⟩ := hw
  constructor
  · rw [wfE_iff]
    rcases h3 with ⟨hes, hty⟩ | ⟨e0, hes, hty, he0p, he0e⟩
    · rw [hes]
      refine ⟨hp, ?_, ?_, wfL_nil⟩
      · intro x hx
        cases hx
      · intro e he
        cases he
    · rw [hes]
      refine ⟨hp, ?_, ?_, ?_⟩
      · intro x hx
        injection hx with hx1 _
        rw [← hx1]
        exact he0p
      · intro e he _
        rcases List.mem_singleton.mp he with rfl
        rw [tame_iff]
        exact Or.inl he0e
      · rw [wfL_cons, Bool.and_eq_true]
        refine ⟨?_, wfL_nil⟩
        obtain ⟨c0, p0, es0, m0⟩ := e0
        dsimp only [Entry.path, Entry.entries] at he0p he0e
        subst he0p
        subst he0e
        exact wfE_sentinel_leaf c0 m0
  · rw [tame_iff]
    dsimp only [Entry.entries]
    rcases h3 with ⟨hes, _⟩ | ⟨e0, hes, _, he0p, he0e⟩
    · exact Or.inl hes
    · exact Or.inr ⟨e0, hes, he0p, he0e⟩

theorem wfE_of_sentinel_leaf {e : Entry} (hp : e.path = SpecialPathSymbol)
    (he : e.entries = []) : wfE e = true := by
  obtain ⟨c, p, es, m⟩ := e
  dsimp only [Entry.path, Entry.entries] at hp he
  subst hp
  subst he
  exact wfE_sentinel_leaf c m

theorem single_of_append {α : Type} (l : List α) (n : α) (x : α)
    (h : l ++ [n] = [x]) : l = [] ∧ n = x := by
  cases l with
  | nil =>
    injection h with h1 _
    exact ⟨rfl, h1⟩
  | cons a t =>
    injection h with _ h2
    rcases List.append_eq_nil.mp h2 with ⟨_, h3⟩
    cases h3

theorem extendNode_wf (sc : Content) (spth : List Nat) (ses : List Entry)
    (sm : Option Meta) (w : Entry) (s' : Entry)
    (hwf : wfE (.mk sc spth ses sm) = true) (hw : insOk w = true)
    (h : extendNode (.mk sc spth ses sm) w = (s', none)) :
    wfE s' = true ∧ s'.path = spth := by
  rw [extendNode] at h
  dsimp only [Entry.content, Entry.entries, Entry.path, Entry.meta] at h
  split_ifs at h with h1 h2
  · exact absurd ((Prod.mk.injEq ..).mp h).2 (by simp)
  · exact absurd ((Prod.mk.injEq ..).mp h).2 (by simp)
  · obtain ⟨h3, _⟩ := (Prod.mk.injEq ..).mp h
    rw [← h3]
    rw [wfE_iff] at hwf
    obtain ⟨hw1, hw2, hw3, hw4⟩ := hwf
    have hn := wfE_repath hw w.content SpecialPathSymbol w.meta (Or.inl rfl)
    refine ⟨?_, rfl⟩
    rw [wfE_iff]
    refine ⟨hw1, ?_, ?_, ?_⟩
    · intro e0 he0
      obtain ⟨_, hn2⟩ := single_of_append ses _ e0 he0
      rw [← hn2]
      rfl
    · intro e he hp
      rcases List.mem_append.mp he with he | he
      · exact hw3 e he hp
      · rcases List.mem_singleton.mp he with rfl
        exact hn.2
    · rw [wfL_all]
      intro e he
      rcases List.mem_append.mp he with he | he
      · exact (wfL_all ses).mp hw4 e he
      · rcases List.mem_singleton.mp he with rfl
        exact hn.1

theorem sentinelReplace_wf : ∀ (w : Entry) (l l' : List Entry),
    sentinelReplace w l = some (l', none) →
    l'.length = l.length ∧ ∀ x ∈ l', x ∈ l ∨ x = w
  | w, [], l' => by
    intro h
    cases h
  | w, me :: rest, l' => by
    intro h
    rw [sentinelReplace] at h
    split_ifs at h with h1 h2
    · injection h with h
      exact absurd ((Prod.mk.injEq ..).mp h).2 (by simp)
    · injection h with h
      obtain ⟨h3, _⟩ := (Prod.mk.injEq ..).mp h
      rw [← h3]
      rw [copy_eq_id]
      refine ⟨by simp, ?_⟩
      intro x hx
      rcases List.mem_cons.mp hx with rfl | hx
      · exact Or.inr rfl
      · exact Or.inl (List.mem_cons_of_mem _ hx)
    · revert h
      cases hrec : sentinelReplace w rest with
      | none =>
        intro h
        cases h
      | some pr =>
        obtain ⟨rest', err⟩ := pr
        intro h
        dsimp only at h
        injection h with h
        obtain ⟨h3, h4⟩ := (Prod.mk.injEq ..).mp h
        rw [h4] at hrec
        obtain ⟨ih1, ih2⟩ := sentinelReplace_wf w rest rest' hrec
        rw [← h3]
        refine ⟨by simp [ih1], ?_⟩
        intro x hx
        rcases List.mem_cons.mp hx with rfl | hx
        · exact Or.inl (List.mem_cons_self ..)
        · rcases ih2 x hx with hx2 | hx2
          · exact Or.inl (List.mem_cons_of_mem _ hx2)
          · exact Or.inr hx2

theorem bne_false_iff {t u : List Nat} : ((t != u) = false) ↔ t = u := by
  rw [bne]
  simp

theorem append_child_wf (sc : Content) (spth : List Nat) (ses : List Entry)
    (sm : Option Meta) (w : Entry)
    (hw1 : spth = SpecialPathSymbol ∨ 58 ∉ spth)
    (hw3 : ∀ e ∈ ses, e.path = SpecialPathSymbol → tame e = true)
    (hw4 : wfL ses = true)
    (hw : insOk w = true)
    (hne : ses ≠ []) :
    wfE (.mk sc spth (ses ++ [w]) sm) = true := by
  have hwp58 : 58 ∉ w.path := ((insOk_iff w).mp hw).1
  rw [wfE_iff]
  refine ⟨hw1, ?_, ?_, ?_⟩
  · intro x hx
    obtain ⟨hnil, _⟩ := single_of_append ses w x hx
    exact absurd hnil hne
  · intro e he hp
    rcases List.mem_append.mp he with he | he
    · exact hw3 e he hp
    · rcases List.mem_singleton.mp he with rfl
      rw [hp] at hwp58
      exact absurd (by simp [SpecialPathSymbol]) hwp58
  · rw [wfL_all]
    intro e he
    rcases List.mem_append.mp he with he | he
    · exact (wfL_all ses).mp hw4 e he
    · rcases List.mem_singleton.mp he with rfl
      exact wfE_of_insOk hw

theorem addNode_wf (sc : Content) (spth : List Nat) (ses : List Entry)
    (sm : Option Meta) (w : Entry) (s' : Entry)
    (hwf : wfE (.mk sc spth ses sm) = true) (hw : insOk w = true)
    (hne : ses ≠ []) (hs58 : 58 ∉ spth)
    (h : addNode (.mk sc spth ses sm) w = (s', none)) :
    wfE s' = true ∧ 58 ∉ s'.path := by
  have hwp58 : 58 ∉ w.path := ((insOk_iff w).mp hw).1
  have hwwf : wfE w = true := wfE_of_insOk hw
  rw [wfE_iff] at hwf
  obtain ⟨hw1, hw2, hw3, hw4⟩ := hwf
  obtain ⟨wc, wp, wes, wm⟩ := w
  dsimp only [Entry.path] at hwp58
  rw [addNode] at h
  dsimp only [Entry.content, Entry.entries, Entry.path, Entry.meta] at h
  split_ifs at h with h1 h2 h3 h4
  · exact absurd ((Prod.mk.injEq ..).mp h).2 (by simp)
  · obtain ⟨hh, _⟩ := (Prod.mk.injEq ..).mp h
    rw [← hh]
    have hpp : 58 ∉ spth ++ wp := by
      intro hm
      rcases List.mem_append.mp hm with hm | hm
      · exact hs58 hm
      · exact hwp58 hm
    refine ⟨?_, hpp⟩
    rw [wfE_iff]
    refine ⟨Or.inr hpp, ?_, ?_, wfL_nil⟩
    · intro x hx
      cases hx
    · intro e he
      cases he
  · obtain ⟨hh, _⟩ := (Prod.mk.injEq ..).mp h
    rw [← hh]
    rw [isEmptyFolder_iff] at h3
    obtain ⟨hty, e0, hes0, he0p⟩ := h3
    have hpp : 58 ∉ spth ++ wp := by
      intro hm
      rcases List.mem_append.mp hm with hm | hm
      · exact hs58 hm
      · exact hwp58 hm
    refine ⟨?_, hpp⟩
    rw [wfE_iff]
    refine ⟨Or.inr hpp, ?_, ?_, ?_⟩
    · rw [hes0]
      intro x hx
      injection hx with hx1 _
      rw [← hx1]
      exact he0p
    · rw [hes0]
      intro e he hp
      rcases List.mem_singleton.mp he with rfl
      exact hw3 e (by rw [hes0]; exact List.mem_singleton_self _) hp
    · rw [hes0] at hw4
      rw [hes0]
      exact hw4
  · revert h
    cases hrep : sentinelReplace (Entry.mk wc wp wes wm) ses with
    | some pr =>
      obtain ⟨es', err⟩ := pr
      intro h
      dsimp only at h
      obtain ⟨hh, herr⟩ := (Prod.mk.injEq ..).mp h
      rw [herr] at hrep
      obtain ⟨hlen, hmem⟩ := sentinelReplace_wf _ ses es' hrep
      rw [← hh]
      refine ⟨?_, hs58⟩
      rw [wfE_iff]
      refine ⟨Or.inr hs58, ?_, ?_, ?_⟩
      · intro x hx
        exfalso
        rw [hx] at hlen
        rcases List.length_eq_one.mp hlen.symm with ⟨y, hy⟩
        have hy' := hw2 y hy
        apply h3
        rw [isEmptyFolder_iff]
        have hty : sc.type = MIMEDriveEntry := by
          rw [Bool.not_eq_true] at h1
          exact bne_false_iff.mp h1
        exact ⟨hty, y, hy, hy'⟩
      · intro e he hp
        rcases hmem e he with he2 | he2
        · exact hw3 e he2 hp
        · rw [he2] at hp
          dsimp only [Entry.path] at hp
          rw [hp] at hwp58
          exact absurd (by simp [SpecialPathSymbol]) hwp58
      · rw [wfL_all]
        intro e he
        rcases hmem e he with he2 | he2
        · exact (wfL_all ses).mp hw4 e he2
        · rw [he2]
          exact hwwf
    | none =>
      intro h
      obtain ⟨hh, _⟩ := (Prod.mk.injEq ..).mp h
      rw [← hh]
      refine ⟨?_, hs58⟩
      exact append_child_wf sc spth ses sm _ (Or.inr hs58) hw3 hw4 hw hne
  · obtain ⟨hh, _⟩ := (Prod.mk.injEq ..).mp h
    rw [← hh]
    refine ⟨?_, hs58⟩
    exact append_child_wf sc spth ses sm _ (Or.inr hs58) hw3 hw4 hw hne

theorem splitNode_wf (subpre : List Nat) (sc : Content) (spth : List Nat)
    (ses : List Entry) (sm : Option Meta) (w : Entry) (tp : Bool)
    (hwf : wfE (.mk sc spth ses sm) = true)
    (hw : insOk w = true)
    (hsub58 : 58 ∉ subpre)
    (hs58 : 58 ∉ spth)
    (hnewE : strTrimPref spth subpre ≠ [] ∨ ses = []) :
    wfE (splitNode subpre (.mk sc spth ses sm) w tp) = true ∧
    58 ∉ (splitNode subpre (.mk sc spth ses sm) w tp).path := by
  have hwp58 : 58 ∉ w.path := ((insOk_iff w).mp hw).1
  rw [wfE_iff] at hwf
  obtain ⟨hw1, hw2, hw3, hw4⟩ := hwf
  rw [splitNode, Entry.trimPref]
  try dsimp only [Entry.content, Entry.entries, Entry.path, Entry.meta]
  set np := if (strTrimPref spth subpre).isEmpty = true then SpecialPathSymbol
    else strTrimPref spth subpre with hnp
  have hNEwf : wfE (Entry.mk sc np ses none) = true ∧
      (np = SpecialPathSymbol → tame (Entry.mk sc np ses none) = true) ∧
      (np = SpecialPathSymbol ∨ 58 ∉ np) := by
    rcases hnewE with htne | hsesnil
    · have hnp2 : np = strTrimPref spth subpre := by
        rw [hnp, if_neg (by simpa [isEmpty_false_iff] using htne)]
      have h58 : 58 ∉ np := by
        rw [hnp2]
        exact no58_mono (strTrimPref_sublist spth subpre) hs58
      refine ⟨?_, ?_, Or.inr h58⟩
      · rw [wfE_iff]
        exact ⟨Or.inr h58, hw2, hw3, hw4⟩
      · intro hp
        rw [hp] at h58
        exact absurd (by simp [SpecialPathSymbol]) h58
    · subst hsesnil
      refine ⟨?_, ?_, ?_⟩
      · rw [wfE_iff]
        refine ⟨?_, ?_, ?_, wfL_nil⟩
        · rw [hnp]
          split_ifs
          · exact Or.inl rfl
          · exact Or.inr (no58_mono (strTrimPref_sublist spth subpre) hs58)
        · intro x hx
          cases hx
        · intro e he
          cases he
      · intro _
        rw [tame_iff]
        exact Or.inl rfl
      · rw [hnp]
        split_ifs
        · exact Or.inl rfl
        · exact Or.inr (no58_mono (strTrimPref_sublist spth subpre) hs58)
  have hbody : ∀ w1 : Entry, wfE w1 = true →
      (w1.path = SpecialPathSymbol → tame w1 = true) →
      wfE (Entry.mk (NewContent [] [] 0 MIMEDriveEntry sc.createdAt) subpre
        [Entry.mk sc np ses none, w1] sm) = true := by
    intro w1 hwfw1 htame1
    rw [wfE_iff]
    refine ⟨Or.inr hsub58, ?_, ?_, ?_⟩
    · intro x hx
      injection hx with _ h2
      cases h2
    · intro e he hp
      rcases List.mem_cons.mp he with rfl | he
      · exact hNEwf.2.1 hp
      · rcases List.mem_singleton.mp he with rfl
        exact htame1 hp
    · rw [wfL_all]
      intro e he
      rcases List.mem_cons.mp he with rfl | he
      · exact hNEwf.1
      · rcases List.mem_singleton.mp he with rfl
        exact hwfw1
  split_ifs with hcond htp
  · rw [copy_eq_id]
    rw [Bool.and_eq_true, beq_iff_eq] at hcond
    obtain ⟨hef, hpeq⟩ := hcond
    refine ⟨?_, hwp58⟩
    rw [wfE_iff]
    have hsh := ((insOk_iff w).mp hw).2.2
    obtain ⟨wc, wp, wes, wm⟩ := w
    dsimp only [Entry.content, Entry.entries, Entry.path, Entry.meta] at hsh hwp58 ⊢
    rw [isEmptyFolder_iff] at hef
    obtain ⟨hty, e1, hes1, he1p⟩ := hef
    try dsimp only [Entry.content] at hty
    rcases hsh with ⟨hnil, hty2⟩ | ⟨e0, hes0, _, he0p, he0e⟩
    · exact absurd hty hty2
    · subst hes0
      refine ⟨Or.inr hwp58, ?_, ?_, ?_⟩
      · intro x hx
        obtain ⟨hnil, _⟩ := single_of_append [e0] _ x hx
        cases hnil
      · intro e he hp
        rcases List.mem_append.mp he with he | he
        · rcases List.mem_singleton.mp he with rfl
          rw [tame_iff]
          exact Or.inl he0e
        · rcases List.mem_singleton.mp he with rfl
          exact hNEwf.2.1 hp
      · rw [wfL_all]
        intro e he
        rcases List.mem_append.mp he with he | he
        · have hee : e = e0 := List.mem_singleton.mp he
          rw [hee]
          exact wfE_of_sentinel_leaf he0p he0e
        · rcases List.mem_singleton.mp he with rfl
          exact hNEwf.1
  · refine ⟨?_, hsub58⟩
    apply hbody
    · rw [Entry.trimPref]
      refine (wfE_repath hw w.content _ w.meta ?_).1
      dsimp only
      split_ifs with hemp
      · exact Or.inl rfl
      · exact Or.inr (no58_mono (strTrimPref_sublist w.path subpre) hwp58)
    · intro hp
      rw [Entry.trimPref] at hp ⊢
      exact (wfE_repath hw w.content _ w.meta (Or.inl (by
        dsimp only [Entry.path] at hp
        exact hp))).2
  · refine ⟨?_, hsub58⟩
    apply hbody
    · exact wfE_of_insOk hw
    · intro _
      have ht := (wfE_repath hw w.content w.path w.meta (Or.inr hwp58)).2
      rw [entry_eta] at ht
      exact ht

theorem insOk_trim (w : Entry) (spth : List Nat) (hw : insOk w = true)
    (hpre : spth <+: w.path) (hne : w.path ≠ spth) :
    insOk (Entry.trimPref w spth) = true ∧
    (Entry.trimPref w spth).path = strTrimPref w.path spth := by
  obtain ⟨h1, h2, h3⟩ := (insOk_iff w).mp hw
  have htr : strTrimPref w.path spth = w.path.drop spth.length :=
    strTrimPref_of_pref hpre
  have hdne : w.path.drop spth.length ≠ [] := by
    rw [ne_eq, List.drop_eq_nil_iff]
    intro hle
    exact hne (hpre.eq_of_length (Nat.le_antisymm hpre.length_le hle)).symm
  rw [Entry.trimPref]
  rw [htr]
  rw [if_neg (by simpa [isEmpty_false_iff] using hdne)]
  constructor
  · rw [insOk_iff]
    dsimp only [Entry.path, Entry.entries, Entry.content]
    refine ⟨no58_mono (List.drop_sublist _ _) h1, hdne, ?_⟩
    obtain ⟨wc, wp, wes, wm⟩ := w
    exact h3
  · dsimp only [Entry.path]

mutual
theorem addTo_wf : ∀ (now : Int) (s w s' : Entry) (es : Option (List Entry)),
    wfE s = true → 58 ∉ s.path → insOk w = true →
    addTo now s w = (s', es, none) → wfE s' = true ∧ 58 ∉ s'.path
  | now, .mk sc spth ses sm, w, s', es => by
    intro hwf hs58 hw h
    dsimp only [Entry.path] at hs58
    have hwp58 : 58 ∉ w.path := ((insOk_iff w).mp hw).1
    have hwpne : w.path ≠ [] := ((insOk_iff w).mp hw).2.1
    rw [addTo] at h
    dsimp only at h
    by_cases hA : strHasPref spth w.path = true
    · rw [if_pos hA] at h
      by_cases hB : (strTrimPref spth w.path).isEmpty = true
      · rw [if_pos hB] at h
        cases hext : extendNode (Entry.mk sc spth ses sm) w with
        | mk s2 err =>
          rw [hext] at h
          dsimp only at h
          obtain ⟨h1, _, h3⟩ := triple_eq h
          rw [h3] at hext
          obtain ⟨hwfe, hpth⟩ := extendNode_wf sc spth ses sm w s2 hwf hw hext
          rw [← h1]
          exact ⟨hwfe, by rw [hpth]; exact hs58⟩
      · rw [if_neg hB] at h
        by_cases hC : ((strTrimPref spth w.path).headD 0 == 47) = true
        · rw [if_pos hC] at h
          exact absurd (triple_eq h).2.2 (by simp)
        · rw [if_neg hC] at h
          obtain ⟨h1, _, _⟩ := triple_eq h
          rw [← h1]
          exact splitNode_wf w.path sc spth ses sm w true hwf hw hwp58 hs58
            (Or.inl (by simpa [isEmpty_false_iff] using hB))
    · rw [if_neg hA] at h
      by_cases hD : strHasPref w.path spth = true
      · rw [if_pos hD] at h
        have hpre : spth <+: w.path := (strHasPref_iff _ _).mp hD
        have hne2 : w.path ≠ spth := by
          intro heq
          apply hA
          rw [strHasPref_iff, heq]
        obtain ⟨hw', hwpath'⟩ := insOk_trim w spth hw hpre hne2
        have hwp58' : 58 ∉ (Entry.trimPref w spth).path := ((insOk_iff _).mp hw').1
        have hwpne' : (Entry.trimPref w spth).path ≠ [] := ((insOk_iff _).mp hw').2.1
        by_cases hE : ses.isEmpty = true
        · rw [if_pos hE] at h
          have hsesnil : ses = [] := List.isEmpty_iff.mp hE
          by_cases hF : ((Entry.trimPref w spth).path.isEmpty ||
              (Entry.trimPref w spth).path.headD 0 == 47) = true
          · rw [if_pos hF] at h
            by_cases hG : (sc.type == MIMEDriveEntry) = true
            · rw [if_pos hG] at h
              have hcc : 58 ∉ spth ++ (Entry.trimPref w spth).path := by
                intro hm
                rcases List.mem_append.mp hm with hm | hm
                · exact hs58 hm
                · exact hwp58' hm
              have hgoal : wfE (Entry.mk (Entry.trimPref w spth).content
                  (spth ++ (Entry.trimPref w spth).path) ses sm) = true ∧
                  58 ∉ (Entry.mk (Entry.trimPref w spth).content
                    (spth ++ (Entry.trimPref w spth).path) ses sm).path := by
                rw [hsesnil]
                constructor
                · rw [wfE_iff]
                  refine ⟨Or.inr hcc, ?_, ?_, wfL_nil⟩
                  · intro x hx
                    cases hx
                  · intro e he
                    cases he
                · exact hcc
              by_cases hH : (Entry.trimPref w spth).path.isEmpty = true
              · rw [if_pos hH] at h
                obtain ⟨h1, _, _⟩ := triple_eq h
                rw [← h1]
                exact hgoal
              · rw [if_neg hH] at h
                obtain ⟨h1, _, _⟩ := triple_eq h
                rw [← h1]
                exact hgoal
            · rw [if_neg hG] at h
              exact absurd (triple_eq h).2.2 (by simp)
          · rw [if_neg hF] at h
            obtain ⟨h1, _, _⟩ := triple_eq h
            rw [← h1]
            exact splitNode_wf spth sc spth ses sm (Entry.trimPref w spth) false
              hwf hw' hs58 hs58 (Or.inr hsesnil)
        · rw [if_neg hE] at h
          have hsesne : ses ≠ [] := by
            intro hnil
            rw [hnil] at hE
            exact hE rfl
          have hwr : decodeRune (Entry.trimPref w spth).path ≠ 58 :=
            decodeRune_no58 _ hwpne' hwp58'
          revert h
          cases hak : addKids now (decodeRune (Entry.trimPref w spth).path)
              (Entry.trimPref w spth) ses with
          | some pr =>
            obtain ⟨ses2, es0, err⟩ := pr
            intro h
            dsimp only at h
            obtain ⟨h1, _, h3⟩ := triple_eq h
            rw [h3] at hak
            rw [wfE_iff] at hwf
            obtain ⟨hw1, hw2, hw3, hw4⟩ := hwf
            obtain ⟨ih1, ih2, ih3⟩ := addKids_wf now _ _ ses ses2 es0 hw4 hw3 hwr hw' hak
            rw [← h1]
            refine ⟨?_, hs58⟩
            rw [wfE_iff]
            refine ⟨Or.inr hs58, ?_, ih3, ih1⟩
            intro x hx
            exfalso
            rw [hx] at ih2
            rcases List.length_eq_one.mp ih2.symm with ⟨y, hy⟩
            have hyp := hw2 y hy
            rw [hy] at hak
            rw [addKids] at hak
            rw [if_neg (by
              rw [hyp, decodeRune_sentinel]
              simp only [beq_iff_eq]
              exact fun heq => hwr heq.symm)] at hak
            rw [addKids] at hak
            cases hak
          | none =>
            cases hadd : addNode (Entry.mk sc spth ses sm) (Entry.trimPref w spth) with
            | mk s2 err =>
              intro h
              dsimp only at h
              obtain ⟨h1, _, h3⟩ := triple_eq h
              rw [h3] at hadd
              rw [← h1]
              exact addNode_wf sc spth ses sm _ s2 hwf hw' hsesne hs58 hadd
      · rw [if_neg hD] at h
        obtain ⟨h1, _, _⟩ := triple_eq h
        rw [← h1]
        have hnpref : ¬ spth <+: w.path := by
          intro hp
          apply hD
          rw [strHasPref_iff]
          exact hp
        have hklt : retreatIdx spth (lcpLen spth w.path) < spth.length :=
          lt_of_le_of_lt (retreatIdx_le _ _) (lcpLen_lt_of_not_pref hnpref)
        apply splitNode_wf (commonPref spth w.path) sc spth ses sm w true hwf hw
        · exact no58_mono (commonPref_prefix_left spth w.path).sublist hs58
        · exact hs58
        · left
          rw [strTrimPref_of_pref (commonPref_prefix_left spth w.path)]
          rw [ne_eq, List.drop_eq_nil_iff]
          rw [commonPref, List.length_take]
          omega

theorem addKids_wf : ∀ (now : Int) (wr : Nat) (w : Entry) (l l' : List Entry)
    (es : Option (List Entry)),
    wfL l = true → (∀ e ∈ l, e.path = SpecialPathSymbol → tame e = true) →
    wr ≠ 58 → insOk w = true →
    addKids now wr w l = some (l', es, none) →
    wfL l' = true ∧ l'.length = l.length ∧
      (∀ x ∈ l', x.path = SpecialPathSymbol → tame x = true)
  | now, wr, w, [], l', es => by
    intro _ _ _ _ h
    rw [addKids] at h
    cases h
  | now, wr, w, me :: rest, l', es => by
    intro hwfl hta hwr hw h
    rw [wfL_cons, Bool.and_eq_true] at hwfl
    obtain ⟨hwfme, hwfrest⟩ := hwfl
    rw [addKids] at h
    split_ifs at h with hmatch
    · revert h
      cases ha : addTo now me w with
      | mk me2 pr =>
        obtain ⟨es0, err⟩ := pr
        intro h
        dsimp only at h
        injection h with h
        obtain ⟨h1, _, h3⟩ := triple_eq h
        rw [h3] at ha
        have hme58 : 58 ∉ me.path := by
          obtain ⟨mc, mp, mes, mm⟩ := me
          rw [wfE_iff] at hwfme
          dsimp only [Entry.path] at hmatch ⊢
          rcases hwfme.1 with hp | hp
          · exfalso
            rw [hp, decodeRune_sentinel] at hmatch
            rw [beq_iff_eq] at hmatch
            exact hwr hmatch.symm
          · exact hp
        obtain ⟨ihwf, ih58⟩ := addTo_wf now me w me2 es0 hwfme hme58 hw ha
        rw [← h1]
        refine ⟨?_, by simp, ?_⟩
        · rw [wfL_cons, Bool.and_eq_true]
          exact ⟨ihwf, hwfrest⟩
        · intro x hx hp
          rcases List.mem_cons.mp hx with rfl | hx
          · exfalso
            rw [hp] at ih58
            exact ih58 (by simp [SpecialPathSymbol])
          · exact hta x (List.mem_cons_of_mem _ hx) hp
    · revert h
      cases hrec : addKids now wr w rest with
      | none =>
        intro h
        cases h
      | some pr =>
        obtain ⟨rest', es0, err⟩ := pr
        intro h
        dsimp only at h
        injection h with h
        obtain ⟨h1, _, h3⟩ := triple_eq h
        rw [h3] at hrec
        obtain ⟨ih1, ih2, ih3⟩ := addKids_wf now wr w rest rest' es0 hwfrest
          (fun e he => hta e (List.mem_cons_of_mem _ he)) hwr hw hrec
        rw [← h1]
        refine ⟨?_, by simp [ih2], ?_⟩
        · rw [wfL_cons, Bool.and_eq_true]
          exact ⟨hwfme, ih1⟩
        · intro x hx hp
          rcases List.mem_cons.mp hx with rfl | hx
          · exact hta x (List.mem_cons_self ..) hp
          · exact ih3 x hx hp
end

theorem set_self_of_drop {α : Type} : ∀ (l : List α) (i : Nat) (a : α)
    (rest : List α), l.drop i = a :: rest → l.set i a = l
  | [], i, a, rest => by
    intro h
    rw [List.drop_nil] at h
    cases h
  | x :: t, 0, a, rest => by
    intro h
    rw [List.drop_zero] at h
    injection h with h1 _
    rw [List.set_cons_zero, h1]
  | x :: t, i + 1, a, rest => by
    intro h
    rw [List.drop_succ_cons] at h
    rw [List.set_cons_succ, set_self_of_drop t i a rest h]

theorem drop_succ_of_drop {α : Type} (l : List α) (i : Nat) (a : α)
    (rest : List α) (h : l.drop i = a :: rest) : l.drop (i + 1) = rest := by
  have h2 : l.drop (i + 1) = (l.drop i).drop 1 := by
    rw [List.drop_drop]
  rw [h2, h, List.drop_one, List.tail_cons]

theorem removeAndMerge_wf (sc : Content) (spth : List Nat) (ses : List Entry)
    (sm : Option Meta) (i : Nat) (r : Entry)
    (hwf : wfE (.mk sc spth ses sm) = true) (hs58 : 58 ∉ spth)
    (h : removeAndMerge (.mk sc spth ses sm) i = (r, false)) :
    wfE r = true ∧ 58 ∉ r.path := by
  rw [wfE_iff] at hwf
  obtain ⟨hw1, hw2, hw3, hw4⟩ := hwf
  rw [removeAndMerge] at h
  dsimp only [Entry.content, Entry.entries, Entry.path, Entry.meta] at h
  split_ifs at h with hlen
  · exact absurd ((Prod.mk.injEq ..).mp h).2 (by simp)
  · revert h
    cases hes : ses.eraseIdx i with
    | nil =>
      intro h
      dsimp only at h
      obtain ⟨hh, _⟩ := (Prod.mk.injEq ..).mp h
      rw [← hh]
      refine ⟨?_, hs58⟩
      rw [wfE_iff]
      refine ⟨Or.inr hs58, ?_, ?_, wfL_nil⟩
      · intro x hx
        cases hx
      · intro e he
        cases he
    | cons e0 fs =>
      cases fs with
      | nil =>
        intro h
        dsimp only at h
        have he0mem : e0 ∈ ses := (List.eraseIdx_sublist ses i).mem (by
          rw [hes]
          exact List.mem_singleton_self _)
        have hwfe0 : wfE e0 = true := (wfL_all ses).mp hw4 e0 he0mem
        split_ifs at h with hsent htype
        · obtain ⟨hh, _⟩ := (Prod.mk.injEq ..).mp h
          rw [← hh]
          have he0ne : e0.path ≠ SpecialPathSymbol := by
            rw [bne_iff_ne] at hsent
            exact hsent
          obtain ⟨c0, p0, es0, m0⟩ := e0
          rw [wfE_iff] at hwfe0
          obtain ⟨he1, he2, he3, he4⟩ := hwfe0
          dsimp only [Entry.path] at he0ne
          have hp058 : 58 ∉ p0 := by
            rcases he1 with he1 | he1
            · exact absurd he1 he0ne
            · exact he1
          have hcat : 58 ∉ spth ++ p0 := by
            intro hm
            rcases List.mem_append.mp hm with hm | hm
            · exact hs58 hm
            · exact hp058 hm
          refine ⟨?_, hcat⟩
          rw [wfE_iff]
          exact ⟨Or.inr hcat, he2, he3, he4⟩
        · obtain ⟨hh, _⟩ := (Prod.mk.injEq ..).mp h
          rw [← hh]
          refine ⟨?_, hs58⟩
          rw [wfE_iff]
          refine ⟨Or.inr hs58, ?_, ?_, wfL_nil⟩
          · intro x hx
            cases hx
          · intro e he
            cases he
        · obtain ⟨hh, _⟩ := (Prod.mk.injEq ..).mp h
          rw [← hh]
          refine ⟨?_, hs58⟩
          rw [wfE_iff]
          have he0p : e0.path = SpecialPathSymbol := by
            rw [Bool.not_eq_true, bne_false_iff] at hsent
            exact hsent
          refine ⟨Or.inr hs58, ?_, ?_, ?_⟩
          · intro x hx
            injection hx with hx1 _
            rw [← hx1]
            exact he0p
          · intro e he hp
            rcases List.mem_singleton.mp he with rfl
            exact hw3 e he0mem hp
          · rw [wfL_cons, Bool.and_eq_true]
            exact ⟨hwfe0, wfL_nil⟩
      | cons e1 fs2 =>
        intro h
        dsimp only at h
        obtain ⟨hh, _⟩ := (Prod.mk.injEq ..).mp h
        rw [← hh]
        refine ⟨?_, hs58⟩
        rw [wfE_iff]
        refine ⟨Or.inr hs58, ?_, ?_, ?_⟩
        · intro x hx
          injection hx with _ h2
          cases h2
        · intro e he hp
          have hmem : e ∈ ses := (List.eraseIdx_sublist ses i).mem (by
            rw [hes]
            exact he)
          exact hw3 e hmem hp
        · rw [wfL_all]
          intro e he
          have hmem : e ∈ ses := (List.eraseIdx_sublist ses i).mem (by
            rw [hes]
            exact he)
          exact (wfL_all ses).mp hw4 e hmem

theorem deleteOrConvert_wf (md : Entry) (r : Entry) (hmd58 : 58 ∉ md.path)
    (h : deleteOrConvert md = (r, false)) :
    wfE r = true ∧ 58 ∉ r.path := by
  rw [deleteOrConvert] at h
  revert h
  cases hli : lastIndexSep md.path with
  | none =>
    intro h
    exact absurd ((Prod.mk.injEq ..).mp h).2 (by simp)
  | some idx =>
    intro h
    dsimp only at h
    split_ifs at h with hz
    · exact absurd ((Prod.mk.injEq ..).mp h).2 (by simp)
    · obtain ⟨hh, _⟩ := (Prod.mk.injEq ..).mp h
      rw [← hh]
      rw [NewEntry_marker_eq, copy_eq_id]
      have htk : 58 ∉ md.path.take idx :=
        no58_mono (List.take_sublist idx md.path) hmd58
      constructor
      · rw [wfE_iff]
        refine ⟨Or.inr htk, ?_, ?_, ?_⟩
        · intro x hx
          injection hx with hx1 _
          rw [← hx1]
          rfl
        · intro e he hp
          rcases List.mem_singleton.mp he with rfl
          rw [tame_iff]
          exact Or.inl rfl
        · rw [wfL_cons, Bool.and_eq_true]
          exact ⟨wfE_sentinel_leaf _ _, wfL_nil⟩
      · exact htk

theorem wfE_path_clause {e : Entry} (h : wfE e = true) :
    e.path = SpecialPathSymbol ∨ 58 ∉ e.path := by
  obtain ⟨c, p, es, m⟩ := e
  rw [wfE_iff] at h
  exact h.1

mutual
theorem rm_wf : ∀ (sp : List Nat) (s r : Entry),
    wfE s = true →
    (58 ∉ s.path ∨ (s.path = SpecialPathSymbol ∧ tame s = true)) →
    rm sp s = (r, false) →
    wfE r = true ∧ (58 ∉ s.path → 58 ∉ r.path) ∧
      (s.path = SpecialPathSymbol → r = s)
  | sp, .mk c pth es m, r => by
    intro hwf hdisj h
    rw [rm] at h
    try dsimp only at h
    split_ifs at h with hcond
    · by_cases hpth : pth = SpecialPathSymbol
      · exfalso
        rw [deleteOrConvert] at h
        try dsimp only [Entry.path] at h
        rw [hpth] at h
        have hli : lastIndexSep SpecialPathSymbol = none := rfl
        rw [hli] at h
        exact absurd ((Prod.mk.injEq ..).mp h).2 (by simp)
      · have h58 : 58 ∉ pth := by
          dsimp only [Entry.path] at hdisj
          rcases hdisj with h58 | ⟨hp, _⟩
          · exact h58
          · exact absurd hp hpth
        obtain ⟨hwfr, hr58⟩ := deleteOrConvert_wf (Entry.mk c pth es m) r h58 h
        exact ⟨hwfr, fun _ => hr58, fun hp => absurd hp hpth⟩
    · revert h
      cases hloop : rmLoop (strTrimPref sp pth) (.mk c pth es m) 0 es with
      | none =>
        intro h
        obtain ⟨hh, _⟩ := (Prod.mk.injEq ..).mp h
        rw [← hh]
        exact ⟨hwf, fun hx => hx, fun _ => rfl⟩
      | some pr =>
        intro h
        dsimp only at h
        rw [h] at hloop
        exact rmLoop_wf (strTrimPref sp pth) c pth es m 0 es r hwf
          (by dsimp only [Entry.path] at hdisj; exact hdisj) (List.drop_zero es) hloop

theorem rmLoop_wf : ∀ (sp : List Nat) (sc : Content) (spth : List Nat)
    (ses : List Entry) (sm : Option Meta) (i : Nat) (tail : List Entry) (r : Entry),
    wfE (.mk sc spth ses sm) = true →
    (58 ∉ spth ∨ (spth = SpecialPathSymbol ∧ tame (.mk sc spth ses sm) = true)) →
    ses.drop i = tail →
    rmLoop sp (.mk sc spth ses sm) i tail = some (r, false) →
    wfE r = true ∧ (58 ∉ spth → 58 ∉ r.path) ∧
      (spth = SpecialPathSymbol → r = .mk sc spth ses sm)
  | sp, sc, spth, ses, sm, i, [], r => by
    intro _ _ _ h
    rw [rmLoop] at h
    cases h
  | sp, sc, spth, ses, sm, i, me :: rest, r => by
    intro hwf hdisj htail h
    have hme : me ∈ ses := by
      have hmm : me ∈ me :: rest := List.mem_cons_self ..
      rw [← htail] at hmm
      exact (List.drop_sublist i ses).mem hmm
    have hrest : ses.drop (i + 1) = rest := drop_succ_of_drop ses i me rest htail
    have hRAM : ∀ r2 : Entry, removeAndMerge (.mk sc spth ses sm) i = (r2, false) →
        wfE r2 = true ∧ (58 ∉ spth → 58 ∉ r2.path) ∧
          (spth = SpecialPathSymbol → r2 = .mk sc spth ses sm) := by
      intro r2 h2
      rcases hdisj with h58 | ⟨hp, ht⟩
      · obtain ⟨ha, hb⟩ := removeAndMerge_wf sc spth ses sm i r2 hwf h58 h2
        refine ⟨ha, fun _ => hb, fun hps => ?_⟩
        exfalso
        rw [hps] at h58
        exact h58 (by simp [SpecialPathSymbol])
      · exfalso
        rw [tame_iff] at ht
        dsimp only [Entry.entries] at ht
        have hlen : ses.length ≤ 1 := by
          rcases ht with hnil | ⟨e0, he0, _⟩
          · rw [hnil]
            simp
          · rw [he0]
            simp
        rw [removeAndMerge] at h2
        dsimp only [Entry.entries] at h2
        rw [if_pos (by simpa using hlen)] at h2
        exact absurd ((Prod.mk.injEq ..).mp h2).2 (by simp)
    rw [rmLoop] at h
    by_cases hsp : sp.isEmpty = true
    · rw [if_pos hsp] at h
      by_cases hsent : (me.path == SpecialPathSymbol) = true
      · rw [if_pos hsent] at h
        injection h with h
        exact hRAM r h
      · rw [if_neg hsent] at h
        exact rmLoop_wf sp sc spth ses sm (i + 1) rest r hwf hdisj hrest h
    · rw [if_neg hsp] at h
      by_cases hpref : strHasPref sp me.path = true
      · rw [if_pos hpref] at h
        revert h
        cases hrm : rm sp me with
        | mk me2 found =>
          intro h
          dsimp only at h
          cases found with
          | true =>
            rw [if_pos rfl] at h
            injection h with h
            exact hRAM r h
          | false =>
            rw [if_neg (by simp)] at h
            injection h with h
            dsimp only [Entry.content, Entry.path, Entry.entries, Entry.meta] at h
            obtain ⟨hh, _⟩ := (Prod.mk.injEq ..).mp h
            have hwfi := hwf
            rw [wfE_iff] at hwfi
            obtain ⟨hw1, hw2, hw3, hw4⟩ := hwfi
            have hwfme : wfE me = true := (wfL_all ses).mp hw4 me hme
            by_cases hmesent : me.path = SpecialPathSymbol
            · have hid : me2 = me :=
                (rm_wf sp me me2 hwfme
                  (Or.inr ⟨hmesent, hw3 me hme hmesent⟩) hrm).2.2 hmesent
              rw [hid] at hh
              rw [set_self_of_drop ses i me rest htail] at hh
              rw [← hh]
              exact ⟨hwf, fun hx => hx, fun _ => rfl⟩
            · have h58me : 58 ∉ me.path := (wfE_path_clause hwfme).resolve_left hmesent
              obtain ⟨ih1, ih2, _⟩ := rm_wf sp me me2 hwfme (Or.inl h58me) hrm
              have h58me2 : 58 ∉ me2.path := ih2 h58me
              rw [← hh]
              refine ⟨?_, fun hx => hx, ?_⟩
              · rw [wfE_iff]
                refine ⟨hw1, ?_, ?_, ?_⟩
                · intro x hx
                  exfalso
                  have hlen1 : ses.length = 1 := by
                    have hc := congrArg List.length hx
                    rw [List.length_set] at hc
                    simpa using hc
                  rcases List.length_eq_one.mp hlen1 with ⟨y, hy⟩
                  have hysent := hw2 y hy
                  rw [hy] at htail
                  cases i with
                  | zero =>
                    rw [List.drop_zero] at htail
                    injection htail with ht1 _
                    exact hmesent (ht1 ▸ hysent)
                  | succ j =>
                    rw [List.drop_succ_cons, List.drop_nil] at htail
                    cases htail
                · intro e he hp
                  rcases List.mem_or_eq_of_mem_set he with he2 | he2
                  · exact hw3 e he2 hp
                  · exfalso
                    rw [he2] at hp
                    rw [hp] at h58me2
                    exact h58me2 (by simp [SpecialPathSymbol])
                · rw [wfL_all]
                  intro e he
                  rcases List.mem_or_eq_of_mem_set he with he2 | he2
                  · exact (wfL_all ses).mp hw4 e he2
                  · rw [he2]
                    exact ih1
              · intro hps
                exfalso
                rcases hdisj with h58 | ⟨hp2, ht⟩
                · rw [hps] at h58
                  exact h58 (by simp [SpecialPathSymbol])
                · rw [tame_iff] at ht
                  dsimp only [Entry.entries] at ht
                  rcases ht with hnil | ⟨e0, he0, he0p, _⟩
                  · rw [hnil, List.drop_nil] at htail
                    cases htail
                  · rw [he0] at htail
                    cases i with
                    | zero =>
                      rw [List.drop_zero] at htail
                      injection htail with ht1 _
                      exact hmesent (ht1 ▸ he0p)
                    | succ j =>
                      rw [List.drop_succ_cons, List.drop_nil] at htail
                      cases htail
      · rw [if_neg hpref] at h
        by_cases hpref2 : strHasPref me.path sp = true
        · rw [if_pos hpref2] at h
          injection h with h
          obtain ⟨hh, _⟩ := (Prod.mk.injEq ..).mp h
          rw [← hh]
          exact ⟨hwf, fun hx => hx, fun _ => rfl⟩
        · rw [if_neg hpref2] at h
          exact rmLoop_wf sp sc spth ses sm (i + 1) rest r hwf hdisj hrest h
end

theorem rootOk_some_iff (e : Entry) : rootOk (some e) = true ↔
    wfE e = true ∧ 58 ∉ e.path := by
  rw [rootOk]
  simp only [Bool.and_eq_true, Bool.not_eq_true', contains_false_iff]

theorem delete_wf (root : Option Entry) (p : List Nat) (r' : Option Entry)
    (err : Option Err) (hr : rootOk root = true)
    (h : Delete root p = (r', err)) : rootOk r' = true := by
  rw [Delete.eq_def] at h
  split_ifs at h with hp
  · obtain ⟨hh, _⟩ := (Prod.mk.injEq ..).mp h
    rw [← hh]
    exact hr
  · revert h
    cases root with
    | none =>
      intro h
      obtain ⟨hh, _⟩ := (Prod.mk.injEq ..).mp h
      rw [← hh]
      rfl
    | some r =>
      intro h
      dsimp only at h
      revert h
      cases hrm : rm (CleanPath p) r with
      | mk r2 del =>
        cases del with
        | true =>
          intro h
          rw [if_pos rfl] at h
          obtain ⟨hh, _⟩ := (Prod.mk.injEq ..).mp h
          rw [← hh]
          rfl
        | false =>
          intro h
          rw [if_neg (by simp)] at h
          obtain ⟨hh, _⟩ := (Prod.mk.injEq ..).mp h
          rw [← hh]
          obtain ⟨hwf, h58⟩ := (rootOk_some_iff r).mp hr
          obtain ⟨ih1, ih2, _⟩ := rm_wf (CleanPath p) r r2 hwf (Or.inl h58) hrm
          exact (rootOk_some_iff r2).mpr ⟨ih1, ih2 h58⟩

mutual
theorem compressed_of_wfE : ∀ e : Entry, wfE e = true → compressed e = true
  | .mk c pth es m => by
    intro h
    rw [wfE_iff] at h
    obtain ⟨_, h2, _, h4⟩ := h
    have hL := compressedL_of_wfL es h4
    cases es with
    | nil =>
      rw [compressed.eq_def]
      dsimp only
      rw [Bool.and_eq_true]
      exact ⟨rfl, hL⟩
    | cons f fs =>
      cases fs with
      | nil =>
        rw [compressed.eq_def]
        dsimp only
        rw [Bool.and_eq_true]
        refine ⟨?_, hL⟩
        simp only [beq_iff_eq]
        exact h2 f rfl
      | cons g gs =>
        rw [compressed.eq_def]
        dsimp only
        rw [Bool.and_eq_true]
        exact ⟨rfl, hL⟩

theorem compressedL_of_wfL : ∀ es : List Entry, wfL es = true → compressedL es = true
  | [] => fun _ => rfl
  | e :: es => by
    intro h
    rw [wfL_cons, Bool.and_eq_true] at h
    rw [compressedL, Bool.and_eq_true]
    exact ⟨compressed_of_wfE e h.1, compressedL_of_wfL es h.2⟩
end

theorem cleanPath_ne_nil (p : List Nat) (hp : p ≠ []) : CleanPath p ≠ [] := by
  intro h
  have hh := (cleanPath_props p hp).1
  rw [h] at hh
  cases hh

theorem newEntry_validated_insOk (p cid : List Nat) (sz : Int) (ct : List Nat)
    (t : Int) (m1 : Entry)
    (h : Entry.validate (NewEntry p cid sz ct t) = (m1, none)) :
    insOk (Entry.mk m1.content (CleanPath m1.path) m1.entries m1.meta) = true := by
  rw [Entry.validate] at h
  split_ifs at h with hc1 hc2 hc3 hc4
  · exact absurd ((Prod.mk.injEq ..).mp h).2 (by simp)
  · exact absurd ((Prod.mk.injEq ..).mp h).2 (by simp)
  · exact absurd ((Prod.mk.injEq ..).mp h).2 (by simp)
  · exact absurd ((Prod.mk.injEq ..).mp h).2 (by simp)
  · revert h
    cases hcv : contentValidate (NewEntry p cid sz ct t).content with
    | mk c2 err2 =>
      intro h
      dsimp only at h
      obtain ⟨hm1, herr⟩ := (Prod.mk.injEq ..).mp h
      rw [← hm1]
      dsimp only [Entry.content, Entry.path, Entry.entries, Entry.meta]
      have hp58 : 58 ∉ (NewEntry p cid sz ct t).path := by
        rw [Bool.not_eq_true] at hc3
        exact (strContains_58_false _).mp hc3
      rw [(NewEntry_path_kids p cid sz ct t).1] at hp58
      by_cases hct : (ct == MIMEDriveEntry) = true
      · have hctq : ct = MIMEDriveEntry := by simpa using hct
        subst hctq
        rw [NewEntry_marker_eq] at hcv hc4 ⊢
        dsimp only [Entry.content, Entry.path, Entry.entries, Entry.meta] at hcv hc4 ⊢
        have hcvv : contentValidate (⟨[], [], MIMEDriveEntry, 0, 0, t⟩ : Content) =
            (⟨[], [], MIMEDriveEntry, 0, 0, t⟩, none) := rfl
        rw [hcvv] at hcv
        injection hcv with hcv1 _
        rw [← hcv1]
        rw [insOk_iff]
        dsimp only [Entry.content, Entry.entries, Entry.path]
        refine ⟨cleanPath_no58 p hp58, ?_, ?_⟩
        · intro hnil
          apply hc4
          rw [Bool.and_eq_true]
          constructor
          · rfl
          · dsimp only [Entry.path]
            rw [hnil]
            rfl
        · right
          exact ⟨_, rfl, rfl, rfl, rfl⟩
      · have hne : NewEntry p cid sz ct t =
            Entry.mk (NewContent (pathBase p) cid sz ct t) p [] none := by
          rw [NewEntry]
          dsimp only
          rw [if_neg hct]
        rw [hne] at hcv ⊢
        dsimp only [Entry.content, Entry.path, Entry.entries, Entry.meta] at hcv ⊢
        have hpne : p ≠ [] := by
          intro hnil
          apply hc2
          rw [hne]
          dsimp only [Entry.content, Entry.path]
          subst hnil
          rw [Bool.and_eq_true]
          constructor
          · rw [NewContent, if_neg hct]
            rfl
          · rfl
        have hctne : ct ≠ MIMEDriveEntry := by
          intro hq
          rw [hq] at hct
          simp at hct
        have hcty : (NewContent (pathBase p) cid sz ct t).type = ct := by
          rw [NewContent, if_neg hct]
        rw [contentValidate] at hcv
        split_ifs at hcv with hv1 hv2
        · obtain ⟨_, he2⟩ := (Prod.mk.injEq ..).mp hcv
          rw [← he2] at herr
          cases herr
        · obtain ⟨hcc, _⟩ := (Prod.mk.injEq ..).mp hcv
          rw [← hcc]
          rw [insOk_iff]
          dsimp only [Entry.content, Entry.entries, Entry.path]
          refine ⟨cleanPath_no58 p hp58, cleanPath_ne_nil p hpne, ?_⟩
          left
          refine ⟨rfl, ?_⟩
          intro hq
          exact absurd hq (by decide)
        · obtain ⟨hcc, _⟩ := (Prod.mk.injEq ..).mp hcv
          rw [← hcc]
          rw [insOk_iff]
          dsimp only [Entry.content, Entry.entries, Entry.path]
          refine ⟨cleanPath_no58 p hp58, cleanPath_ne_nil p hpne, Or.inl ⟨rfl, ?_⟩⟩
          rw [hcty]
          exact hctne

theorem addFile_wf (now : Int) (root : Option Entry) (p cid : List Nat) (sz : Int)
    (ct : List Nat) (t : Int) (r' : Option Entry) (es : Option (List Entry))
    (hr : rootOk root = true)
    (h : AddFile now root (some (NewEntry p cid sz ct t)) = (r', es, none)) :
    rootOk r' = true := by
  rw [AddFile.eq_def] at h
  dsimp only at h
  rcases hv : Entry.validate (NewEntry p cid sz ct t) with ⟨m1, err⟩
  rw [hv] at h
  dsimp only at h
  cases err with
  | some e0 => exact absurd (triple_eq h).2.2 (by simp)
  | none =>
    have hins := newEntry_validated_insOk p cid sz ct t m1 hv
    revert h
    cases root with
    | none =>
      intro h
      obtain ⟨h1, _, _⟩ := triple_eq h
      rw [← h1, rootOk_some_iff]
      refine ⟨wfE_of_insOk hins, ?_⟩
      have h58 := ((insOk_iff _).mp hins).1
      exact h58
    | some r =>
      intro h
      dsimp only at h
      obtain ⟨h1, _, h3⟩ := triple_eq h
      rw [← h1, rootOk_some_iff]
      rw [copy_eq_id]
      obtain ⟨hwfr, h58r⟩ := (rootOk_some_iff r).mp hr
      have hx : addTo now r (Entry.copy (Entry.mk m1.content (CleanPath m1.path)
          m1.entries m1.meta)) =
          ((addTo now r (Entry.copy (Entry.mk m1.content (CleanPath m1.path)
            m1.entries m1.meta))).1,
           (addTo now r (Entry.copy (Entry.mk m1.content (CleanPath m1.path)
            m1.entries m1.meta))).2.1,
           none) := by
        rw [← h3]
      rw [copy_eq_id] at hx
      exact addTo_wf now r _ _ _ hwfr h58r hins hx

theorem reachable_rootOk (r : Option Entry) (h : Reachable r) : rootOk r = true := by
  induction h with
  | empty => rfl
  | add now r0 path cid size ctype createdAt r1 es _ hadd ih =>
    exact addFile_wf now r0 path cid size ctype createdAt r1 es ih hadd
  | del r0 path r1 err _ hdel ih =>
    exact delete_wf r0 path r1 err ih hdel

/-- Claim C7: the compression invariant — in every trie state reachable from the
empty trie through successful `AddFile` calls of constructor-built entries and
arbitrary `Delete` calls, no node has exactly one child unless that single child
is the sentinel `":"` child. -/
theorem c7_reachable_compressed (r : Option Entry) (hr : Reachable r) (e : Entry)
    (he : r = some e) : compressed e = true := by
  have hok := reachable_rootOk r hr
  rw [he] at hok
  obtain ⟨hwf, _⟩ := (rootOk_some_iff e).mp hok
  exact compressed_of_wfE e hwf

/-- Witness for C7: the concrete trie holding the single file `/folder/f1` is
reachable (one successful `AddFile` from the empty trie) and compressed. -/
theorem c7_reachable_compressed_witness :
    compressed (Entry.mk (Content.mk (bytesOf "f1") (bytesOf "c") MIMEOctetStream
      1 1 100) (bytesOf "/folder/f1") [] none) = true :=
  c7_reachable_compressed
    (some (Entry.mk (Content.mk (bytesOf "f1") (bytesOf "c") MIMEOctetStream
      1 1 100) (bytesOf "/folder/f1") [] none))
    (Reachable.add 100 none (bytesOf "/folder/f1") (bytesOf "c") 1 MIMEOctetStream
      100
      (some (Entry.mk (Content.mk (bytesOf "f1") (bytesOf "c") MIMEOctetStream
        1 1 100) (bytesOf "/folder/f1") [] none))
      (some [])
      Reachable.empty (by decide))
    (Entry.mk (Content.mk (bytesOf "f1") (bytesOf "c") MIMEOctetStream
      1 1 100) (bytesOf "/folder/f1") [] none)
    rfl

end TrieFS
